import Mathlib

/-!
# Verification of the component-usage counter scripts

Shallow embedding of the two analysis scripts of this repository
(`src/script-func-comp.js`, the split-table variant, and
`src/unnamed/part_000`, the merged-table variant) together with proofs
about the claims of the specification.

Modelling conventions:

* File contents, file paths and symbol names are `List Char` (`Str`).
* Each JavaScript regular expression used by the scripts is embedded as a
  hand-written matcher over `Str` that follows the regex's semantics at a
  match position (including greedy/lazy repetition, lookarounds and word
  boundaries); the repeated `exec` loop with a `g`-flagged regex is
  embedded as `scanAll`, which scans positions left to right and resumes
  after each match, exactly like `lastIndex` advancing.
* The component names spliced verbatim into regexes (for example
  `` `<${component}...` ``) are matched with `matchSym`, where the
  character `.` of the spliced name acts as the regex wildcard `.` and
  every other character (the scripts deal in word-like names) is literal.
* JavaScript plain objects used as maps (`componentUsage`,
  `componentInstancesJSX`, ...) are modelled as insertion-ordered
  association lists, matching `Object.keys` enumeration order for string
  keys; `Set` keeps insertion order and uniqueness.  Prototype-chain key
  collisions (a component literally named `constructor` and the like) are
  outside the model.
* The timestamp `new Date().toISOString()` is an explicit parameter of
  the report builder, and the tree walk (an external collaborator per the
  specification) is abstracted by the list of (path, content) pairs it
  yields, in walk order.
-/

namespace CompUsage

/-- File text, paths and symbol names: strings as lists of characters. -/
abbrev Str := List Char

/-- Embed a Lean string literal. -/
def str (s : String) : Str := s.data

/-- The compiled-in target module name (`targetPackageName` in both scripts). -/
def pkgS : Str := str "your-package-name"

/-! ## Character classes -/

/-- The regex class `\w` = `[A-Za-z0-9_]`. -/
def isWordChar (c : Char) : Bool :=
  ('a' ≤ c && c ≤ 'z') || ('A' ≤ c && c ≤ 'Z') || ('0' ≤ c && c ≤ '9') || c = '_'

/-- The regex class `[\w-]` used in the lookaheads of the JSX patterns. -/
def isWordDash (c : Char) : Bool :=
  isWordChar c || c = '-'

/-- The regex class `\s` (ASCII whitespace; the scripts' inputs are source text). -/
def isSpace (c : Char) : Bool :=
  c = ' ' || c = '\t' || c = '\n' || c = '\r' || c = '\x0b' || c = '\x0c'

/-- `\w`-ness of the optional character next to a `\b` word boundary;
string edges count as non-word. -/
def isWordOpt : Option Char → Bool
  | none => false
  | some c => isWordChar c

/-! ## Matching primitives

Each primitive consumes a prefix of the given suffix of the subject text
and reports how many characters it consumed. -/

/-- Match a literal string (regex characters with no metacharacter),
returning the number of characters consumed. -/
def matchLit : Str → Str → Option Nat
  | [], _ => some 0
  | _ :: _, [] => none
  | p :: ps, c :: cs =>
    if p = c then (matchLit ps cs).map (· + 1) else none

/-- Match a component name that was spliced verbatim into a regex:
`.` in the name is the regex wildcard, other characters are literal. -/
def matchSym : Str → Str → Option Nat
  | [], _ => some 0
  | _ :: _, [] => none
  | p :: ps, c :: cs =>
    if p = c || p = '.' then (matchSym ps cs).map (· + 1) else none

/-- Length of the maximal run of `\s` characters (`\s*`; `\s+` when the
caller additionally demands it be positive).  In every pattern of the
scripts the token following the run cannot begin with whitespace, so
maximal munch agrees with backtracking semantics. -/
def wsCount : Str → Nat
  | [] => 0
  | c :: cs => if isSpace c then wsCount cs + 1 else 0

/-- Length of the maximal run matching `[^{\s]` (`[^{\s]+` when positive);
the following `\s+` cannot consume these characters, so maximal munch is
faithful. -/
def tokCount : Str → Nat
  | [] => 0
  | c :: cs => if isSpace c || c = '{' then 0 else tokCount cs + 1

/-- Length of the maximal run matching `[A-Za-z0-9_]` (the member-name
capture `([A-Za-z0-9_]+)` of the namespace patterns when positive). -/
def wordCount : Str → Nat
  | [] => 0
  | c :: cs => if isWordChar c then wordCount cs + 1 else 0

/-- The capture `([^}]*)` followed by `}`: characters strictly before the
first `}`; `none` when no `}` follows. -/
def innerCount : Str → Option Nat
  | [] => none
  | c :: cs => if c = '}' then some 0 else (innerCount cs).map (· + 1)

/-- The lazy tail `[^>]*?(?:>|/>)` of the JSX patterns: at each point the
alternation `>`, then `/>`, is tried before consuming one `[^>]` character.
Returns the total number of characters consumed (content plus closer). -/
def lazyCloseLen : Str → Option Nat
  | [] => none
  | '>' :: _ => some 1
  | '/' :: '>' :: _ => some 2
  | c :: cs => if c = '>' then none else (lazyCloseLen cs).map (· + 1)

/-- The fragment `['"]your-package-name['"]` (the two quotes may differ,
exactly as with the character classes in the source regexes). -/
def quotedPkg (s : Str) : Option Nat :=
  match s with
  | q1 :: rest =>
    if q1 = '\'' || q1 = '"' then
      match matchLit pkgS rest with
      | some n =>
        match rest.drop n with
        | q2 :: _ => if q2 = '\'' || q2 = '"' then some (n + 2) else none
        | [] => none
      | none => none
    else none
  | [] => none

/-! ## The repeated-`exec` scan

`while ((match = pattern.exec(content)) !== null)` with a `g` regex: the
engine attempts the pattern at successive positions and resumes after the
end of each match.  The matcher receives the character preceding the
current position (for lookbehind and `\b`) and the remaining suffix. -/

/-- One `exec` loop.  Emits, for every match, the character before the
match, the suffix at which the pattern fired, and the captured value. -/
def scanP (f : Option Char → Str → Option (α × Nat)) :
    Nat → Option Char → Str → List (Option Char × Str × α)
  | 0, _, _ => []
  | _ + 1, _, [] => []
  | fuel + 1, prev, c :: cs =>
    match f prev (c :: cs) with
    | some (a, n) =>
      let m := max n 1
      (prev, c :: cs, a) :: scanP f fuel ((c :: cs).get? (m - 1)) ((c :: cs).drop m)
    | none => scanP f fuel (some c) cs

/-- Scan a whole subject string from its start. -/
def scanAll (f : Option Char → Str → Option (α × Nat)) (s : Str) :
    List (Option Char × Str × α) :=
  scanP f (s.length + 1) none s

/-! ## String helpers used by the import extractor -/

/-- JavaScript `String.prototype.split` with a one-character separator. -/
def splitOnChar (sep : Char) : Str → List Str
  | [] => [[]]
  | c :: cs =>
    if c = sep then [] :: splitOnChar sep cs
    else
      match splitOnChar sep cs with
      | [] => [[c]]
      | p :: ps => (c :: p) :: ps

/-- Worker for `splitOnStr`; the fuel only certifies termination (every
step consumes at least one character, so `s.length` fuel is enough). -/
def splitOnStrAux (sep : Str) : Nat → Str → List Str
  | _, [] => [[]]
  | 0, _ :: _ => [[]]
  | fuel + 1, c :: cs =>
    match matchLit sep (c :: cs) with
    | some n =>
      if 1 ≤ n then [] :: splitOnStrAux sep fuel ((c :: cs).drop n)
      else
        match splitOnStrAux sep fuel cs with
        | [] => [[c]]
        | p :: ps => (c :: p) :: ps
    | none =>
      match splitOnStrAux sep fuel cs with
      | [] => [[c]]
      | p :: ps => (c :: p) :: ps

/-- JavaScript `String.prototype.split` with a (nonempty) string separator:
left-to-right, non-overlapping occurrences. -/
def splitOnStr (sep s : Str) : List Str :=
  splitOnStrAux sep s.length s

/-- Drop leading `\s` characters. -/
def trimLeft : Str → Str
  | [] => []
  | c :: cs => if isSpace c then trimLeft cs else c :: cs

/-- JavaScript `String.prototype.trim` (on source text: ASCII whitespace). -/
def trimStr (s : Str) : Str :=
  ((trimLeft s).reverse |> trimLeft).reverse

/-- `s.trim().split(" as ")[0].trim()` — the key derived from one entry of
a named-import list. -/
def namedKey (s : Str) : Str :=
  trimStr ((splitOnStr (str " as ") (trimStr s)).headD [])

/-- `s.trim().split(" as ")[0].split(":")[0].trim()` — the key derived
from one entry of a destructured `require`. -/
def requireKey (s : Str) : Str :=
  trimStr ((splitOnChar ':' ((splitOnStr (str " as ") (trimStr s)).headD [])).headD [])

/-! ## Import-statement matchers (the five idiom regexes) -/

/-- `import\s+{([^}]*)}\s+from\s+['"]your-package-name['"]` — capture is
the text between the braces. -/
def namedImportAt (s : Str) : Option (Str × Nat) :=
  match matchLit (str "import") s with
  | none => none
  | some n0 =>
    let s1 := s.drop n0
    let w1 := wsCount s1
    if w1 = 0 then none else
    match s1.drop w1 with
    | '{' :: s2 =>
      match innerCount s2 with
      | none => none
      | some k =>
        let inner := s2.take k
        let s3 := s2.drop (k + 1)
        let w2 := wsCount s3
        if w2 = 0 then none else
        match matchLit (str "from") (s3.drop w2) with
        | none => none
        | some n1 =>
          let s4 := (s3.drop w2).drop n1
          let w3 := wsCount s4
          if w3 = 0 then none else
          match quotedPkg (s4.drop w3) with
          | none => none
          | some nq => some (inner, n0 + w1 + 1 + k + 1 + w2 + n1 + w3 + nq)
    | _ => none

/-- `import\s+([^{\s]+)\s+from\s+['"]your-package-name['"]` — capture is
the default-bound name. -/
def defaultImportAt (s : Str) : Option (Str × Nat) :=
  match matchLit (str "import") s with
  | none => none
  | some n0 =>
    let s1 := s.drop n0
    let w1 := wsCount s1
    if w1 = 0 then none else
    let t := tokCount (s1.drop w1)
    if t = 0 then none else
    let cap := (s1.drop w1).take t
    let s2 := (s1.drop w1).drop t
    let w2 := wsCount s2
    if w2 = 0 then none else
    match matchLit (str "from") (s2.drop w2) with
    | none => none
    | some n1 =>
      let s3 := (s2.drop w2).drop n1
      let w3 := wsCount s3
      if w3 = 0 then none else
      match quotedPkg (s3.drop w3) with
      | none => none
      | some nq => some (cap, n0 + w1 + t + w2 + n1 + w3 + nq)

/-- `import\s+\*\s+as\s+([^\s]+)\s+from\s+['"]your-package-name['"]` —
capture is the namespace nsAlias.  (`[^\s]+`, unlike `[^{\s]+`, admits `{`.) -/
def namespaceImportAt (s : Str) : Option (Str × Nat) :=
  match matchLit (str "import") s with
  | none => none
  | some n0 =>
    let s1 := s.drop n0
    let w1 := wsCount s1
    if w1 = 0 then none else
    match s1.drop w1 with
    | '*' :: s2 =>
      let w2 := wsCount s2
      if w2 = 0 then none else
      match matchLit (str "as") (s2.drop w2) with
      | none => none
      | some n1 =>
        let s3 := (s2.drop w2).drop n1
        let w3 := wsCount s3
        if w3 = 0 then none else
        let t := nonSpaceCount (s3.drop w3)
        if t = 0 then none else
        let cap := (s3.drop w3).take t
        let s4 := (s3.drop w3).drop t
        let w4 := wsCount s4
        if w4 = 0 then none else
        match matchLit (str "from") (s4.drop w4) with
        | none => none
        | some n2 =>
          let s5 := (s4.drop w4).drop n2
          let w5 := wsCount s5
          if w5 = 0 then none else
          match quotedPkg (s5.drop w5) with
          | none => none
          | some nq =>
            some (cap, n0 + w1 + 1 + w2 + n1 + w3 + t + w4 + n2 + w5 + nq)
    | _ => none
where
  /-- Maximal run of `[^\s]` characters. -/
  nonSpaceCount : Str → Nat
    | [] => 0
    | c :: cs => if isSpace c then 0 else nonSpaceCount cs + 1

/-- The tail `\s+=\s+require\s*\(\s*['"]your-package-name['"]\s*\)` shared
by the two `require` patterns. -/
def requireTail (s : Str) : Option Nat :=
  let w0 := wsCount s
  if w0 = 0 then none else
  match s.drop w0 with
  | '=' :: s1 =>
    let w1 := wsCount s1
    if w1 = 0 then none else
    match matchLit (str "require") (s1.drop w1) with
    | none => none
    | some n0 =>
      let s2 := (s1.drop w1).drop n0
      let w2 := wsCount s2
      match s2.drop w2 with
      | '(' :: s3 =>
        let w3 := wsCount s3
        match quotedPkg (s3.drop w3) with
        | none => none
        | some nq =>
          let s4 := (s3.drop w3).drop nq
          let w4 := wsCount s4
          match s4.drop w4 with
          | ')' :: _ => some (w0 + 1 + w1 + n0 + w2 + 1 + w3 + nq + w4 + 1)
          | _ => none
      | _ => none
  | _ => none

/-- The alternation `(?:const|let|var)` (ordered; the branches have
pairwise distinct first characters, so at most one can fire). -/
def declKeyword (s : Str) : Option Nat :=
  match matchLit (str "const") s with
  | some n => some n
  | none =>
    match matchLit (str "let") s with
    | some n => some n
    | none => matchLit (str "var") s

/-- `(?:const|let|var)\s+{([^}]*)}\s+=\s+require\s*\(\s*['"]...['"]\s*\)` —
capture is the text between the braces. -/
def requireAt (s : Str) : Option (Str × Nat) :=
  match declKeyword s with
  | none => none
  | some n0 =>
    let s1 := s.drop n0
    let w1 := wsCount s1
    if w1 = 0 then none else
    match s1.drop w1 with
    | '{' :: s2 =>
      match innerCount s2 with
      | none => none
      | some k =>
        let inner := s2.take k
        match requireTail (s2.drop (k + 1)) with
        | none => none
        | some nt => some (inner, n0 + w1 + 1 + k + 1 + nt)
    | _ => none

/-- `(?:const|let|var)\s+([^{\s]+)\s+=\s+require\s*\(\s*['"]...['"]\s*\)` —
capture is the default-bound name. -/
def requireDefaultAt (s : Str) : Option (Str × Nat) :=
  match declKeyword s with
  | none => none
  | some n0 =>
    let s1 := s.drop n0
    let w1 := wsCount s1
    if w1 = 0 then none else
    let t := tokCount (s1.drop w1)
    if t = 0 then none else
    let cap := (s1.drop w1).take t
    match requireTail ((s1.drop w1).drop t) with
    | none => none
    | some nt => some (cap, n0 + w1 + t + nt)

/-- All captures of `namedImportPattern.exec` over a file's text. -/
def namedMatches (content : Str) : List Str :=
  (scanAll (fun _ s => namedImportAt s) content).map (fun e => e.2.2)

/-- All captures of `defaultImportPattern.exec` over a file's text. -/
def defaultMatches (content : Str) : List Str :=
  (scanAll (fun _ s => defaultImportAt s) content).map (fun e => e.2.2)

/-- All captures of `namespaceImportPattern.exec` over a file's text. -/
def namespaceMatches (content : Str) : List Str :=
  (scanAll (fun _ s => namespaceImportAt s) content).map (fun e => e.2.2)

/-- All captures of `requirePattern.exec` over a file's text. -/
def requireMatches (content : Str) : List Str :=
  (scanAll (fun _ s => requireAt s) content).map (fun e => e.2.2)

/-- All captures of `requireDefaultPattern.exec` over a file's text. -/
def requireDefaultMatches (content : Str) : List Str :=
  (scanAll (fun _ s => requireDefaultAt s) content).map (fun e => e.2.2)

/-! ## The symbol table and instance tables -/

/-- Insertion-ordered map from key to a list of file paths (a JavaScript
plain object used as a map; object keys are unique, so updating a key
updates its single entry in place and a new key is appended at the end). -/
abbrev Table := List (Str × List Str)

/-- `table[k]` — the value stored under a key, if present. -/
def lookupT (t : Table) (k : Str) : Option (List Str) :=
  match t with
  | [] => none
  | e :: t => if e.1 = k then some e.2 else lookupT t k

/-- The keys of a table, in insertion order (`Object.keys`). -/
def keysOf (t : Table) : List Str := t.map (fun e => e.1)

/-- The recorded occurrence list of a key (empty when absent):
`table[k]` read as a list, `undefined` as the empty list. -/
def filesAt (t : Table) (k : Str) : List Str := (lookupT t k).getD []

/-- `if (!componentUsage[k]) componentUsage[k] = new Set();
componentUsage[k].add(f)` — `Set.add` keeps insertion order and ignores
duplicates. -/
def addImport (t : Table) (k : Str) (f : Str) : Table :=
  match t with
  | [] => [(k, [f])]
  | e :: t =>
    if e.1 = k then (e.1, if e.2.contains f then e.2 else e.2 ++ [f]) :: t
    else e :: addImport t k f

/-- `if (!inst[k]) inst[k] = []; inst[k].push(f)`. -/
def pushInst (t : Table) (k : Str) (f : Str) : Table :=
  match t with
  | [] => [(k, [f])]
  | e :: t =>
    if e.1 = k then (e.1, e.2 ++ [f]) :: t
    else e :: pushInst t k f

/-- Push the same file once per occurrence (`for (let i = 0; i < n; i++)`). -/
def pushInstN (t : Table) (k : Str) (f : Str) : Nat → Table
  | 0 => t
  | n + 1 => pushInstN (pushInst t k f) k f n

/-! ## `findImports` (identical in both scripts) -/

/-- The named-import loop: split each captured brace body on `,`, derive
each entry's key, add the file under the key. -/
def processNamed (f : Str) (inners : List Str) (t : Table) : Table :=
  inners.foldl (fun t inner =>
    ((splitOnChar ',' inner).map namedKey).foldl (fun t k => addImport t k f) t) t

/-- The default-import loop: trim the capture and add it — unless it
equals the target package name (the self-reference guard). -/
def processDefault (f : Str) (caps : List Str) (t : Table) : Table :=
  caps.foldl (fun t cap =>
    let k := trimStr cap
    if k = pkgS then t else addImport t k f) t

/-- The namespace-import loop: add the key `*` ++ trimmed nsAlias. -/
def processNamespace (f : Str) (caps : List Str) (t : Table) : Table :=
  caps.foldl (fun t cap => addImport t ('*' :: trimStr cap) f) t

/-- The destructured-`require` loop: like the named-import loop, with the
`:` rename form also cut down to its left-hand side. -/
def processRequire (f : Str) (inners : List Str) (t : Table) : Table :=
  inners.foldl (fun t inner =>
    ((splitOnChar ',' inner).map requireKey).foldl (fun t k => addImport t k f) t) t

/-- The default-`require` loop: trim the capture and add it, with no
self-reference guard. -/
def processRequireDefault (f : Str) (caps : List Str) (t : Table) : Table :=
  caps.foldl (fun t cap => addImport t (trimStr cap) f) t

/-- `findImports(content, filePath)` — the five loops in source order. -/
def findImports (content f : Str) (t : Table) : Table :=
  processRequireDefault f (requireDefaultMatches content)
    (processRequire f (requireMatches content)
      (processNamespace f (namespaceMatches content)
        (processDefault f (defaultMatches content)
          (processNamed f (namedMatches content) t))))

/-! ## Usage-site matchers (`script-func-comp.js`, the split variant) -/

/-- `extractJSXUsage`'s pattern `<${component}(?![\w-])(?![\w-])[^>]*?(?:>|/>)`
(the doubled lookahead is idempotent): an opening or self-closing tag of
the component, never a closing tag `</...>`. -/
def plainJSXAt (comp : Str) (s : Str) : Option (Unit × Nat) :=
  match s with
  | '<' :: rest =>
    match matchSym comp rest with
    | some n =>
      if isWordDash ((rest.drop n).headD ' ') then none
      else
        match lazyCloseLen (rest.drop n) with
        | some m => some ((), 1 + n + m)
        | none => none
    | none => none
  | _ => none

/-- `findComponentUsages`'s namespace JSX pattern
`<${namespaceAlias}\.([A-Za-z0-9_]+)(?![\w-])[^>]*?(?:>|/>)`; the member
run is maximal (greedy capture; a shorter run would face a `\w` character
and fail the lookahead, and a maximal run followed by `-` fails it too). -/
def nsJSXAt (nsAlias : Str) (s : Str) : Option (Str × Nat) :=
  match s with
  | '<' :: rest =>
    match matchSym nsAlias rest with
    | some n =>
      match rest.drop n with
      | '.' :: rest2 =>
        if wordCount rest2 = 0 then none
        else if isWordDash ((rest2.drop (wordCount rest2)).headD ' ') then none
        else
          match lazyCloseLen (rest2.drop (wordCount rest2)) with
          | some m =>
            some (rest2.take (wordCount rest2), 1 + n + 1 + wordCount rest2 + m)
          | none => none
      | _ => none
    | none => none
  | _ => none

/-- `findComponentUsages`'s namespace call pattern
`${namespaceAlias}\.([A-Za-z0-9_]+)\s*\(`; the member run is maximal (a
shorter run would face a `\w` character where `\s*\(` must match). -/
def nsFuncAt (nsAlias : Str) (s : Str) : Option (Str × Nat) :=
  match matchSym nsAlias s with
  | some n =>
    match s.drop n with
    | '.' :: rest2 =>
      if wordCount rest2 = 0 then none
      else
        match (rest2.drop (wordCount rest2)).drop
            (wsCount (rest2.drop (wordCount rest2))) with
        | '(' :: _ =>
          some (rest2.take (wordCount rest2),
            n + 1 + wordCount rest2 + wsCount (rest2.drop (wordCount rest2)) + 1)
        | _ => none
    | _ => none
  | none => none

/-- `findComponentUsages`'s plain call pattern `(?<![.<])\b${component}\s*\(`:
the negative lookbehind rejects a preceding `.` or `<`, and the word
boundary compares the `\w`-ness of the preceding character and of the
first matched character. -/
def plainFuncAt (comp : Str) (prev : Option Char) (s : Str) : Option (Unit × Nat) :=
  if prev = some '.' || prev = some '<' then none
  else if isWordOpt prev = isWordOpt s.head? then none
  else
    match matchSym comp s with
    | some n =>
      match (s.drop n).drop (wsCount (s.drop n)) with
      | '(' :: _ => some ((), n + wsCount (s.drop n) + 1)
      | _ => none
    | none => none

/-- All sites at which `extractJSXUsage(content, component)` records a match. -/
def jsxSites (comp content : Str) : List (Option Char × Str × Unit) :=
  scanAll (fun _ s => plainJSXAt comp s) content

/-- All sites (with member capture) of the namespace JSX loop. -/
def nsJSXSites (nsAlias content : Str) : List (Option Char × Str × Str) :=
  scanAll (fun _ s => nsJSXAt nsAlias s) content

/-- All sites (with member capture) of the namespace call loop. -/
def nsFuncSites (nsAlias content : Str) : List (Option Char × Str × Str) :=
  scanAll (fun _ s => nsFuncAt nsAlias s) content

/-- All sites of the plain call loop. -/
def funcSites (comp content : Str) : List (Option Char × Str × Unit) :=
  scanAll (plainFuncAt comp) content

/-! ## `findComponentUsages` and the analysis state (split variant) -/

/-- The three process-wide tables of `script-func-comp.js`. -/
structure St where
  usage : Table
  instJSX : Table
  instFunc : Table
deriving DecidableEq, Repr

/-- The empty initial state. -/
def St.empty : St := ⟨[], [], []⟩

/-- The namespace JSX loop body: for each match push the full name into
the JSX table and remember it in the per-file `namespaceComponents` set. -/
def nsJSXLoop (f nsAlias : Str) (members : List Str) (st : St) :
    St × List Str :=
  members.foldl
    (fun (acc : St × List Str) m =>
      let full := nsAlias ++ '.' :: m
      ({ acc.1 with instJSX := pushInst acc.1.instJSX full f },
       if acc.2.contains full then acc.2 else acc.2 ++ [full]))
    (st, [])

/-- The namespace call loop body: push the full name into the call table
unless it is in the `namespaceComponents` set gathered in the same pass. -/
def nsFuncLoop (f nsAlias : Str) (members : List Str) (nsSet : List Str) (st : St) : St :=
  members.foldl
    (fun st m =>
      let full := nsAlias ++ '.' :: m
      if nsSet.contains full then st
      else { st with instFunc := pushInst st.instFunc full f })
    st

/-- The namespace branch of the `findComponentUsages` loop body: gather
markup member usages (pushing each into the JSX table and into the
per-file `namespaceComponents` set), then record call usages not
suppressed by that set. -/
def starBranch (content f nsAlias : Str) (st : St) : St :=
  match nsJSXLoop f nsAlias ((nsJSXSites nsAlias content).map (fun e => e.2.2)) st with
  | (st1, nsSet) =>
    nsFuncLoop f nsAlias ((nsFuncSites nsAlias content).map (fun e => e.2.2)) nsSet st1

/-- The second half of the plain branch, applied to the state `st1`
obtained after the JSX pushes: the file-level suppression check against
the (just updated) JSX row, then the call-style pushes. -/
def plainTail (content f comp : Str) (st1 : St) : St :=
  if (filesAt st1.instJSX comp).contains f then st1
  else if (funcSites comp content).length > 0 then
    { st1 with instFunc := pushInstN st1.instFunc comp f (funcSites comp content).length }
  else st1

/-- The plain branch of the loop body: push one JSX entry per markup
match, then `plainTail`. -/
def plainBranch (content f comp : Str) (st : St) : St :=
  plainTail content f comp
    (if (jsxSites comp content).length > 0 then
      { st with instJSX := pushInstN st.instJSX comp f (jsxSites comp content).length }
    else st)

/-- The loop body of `findComponentUsages` for one key of the symbol
table: the namespace branch for keys starting with `*`, otherwise the
plain branch (JSX matches, then the file-level suppression check, then
call matches). -/
def perComponent (content f : Str) (st : St) (comp : Str) : St :=
  match comp with
  | '*' :: nsAlias => starBranch content f nsAlias st
  | _ => plainBranch content f comp st

/-- `findComponentUsages(content, filePath)`: iterate over the keys of the
symbol table in insertion order. -/
def findComponentUsages (content f : Str) (st : St) : St :=
  (st.usage.map (fun e => e.1)).foldl (perComponent content f) st

/-- `processFile`: extract imports, then, if the symbol table is
nonempty, extract usages from the same file text. -/
def processFile (st : St) (file : Str × Str) : St :=
  if (findImports file.2 file.1 st.usage).isEmpty then
    { st with usage := findImports file.2 file.1 st.usage }
  else
    findComponentUsages file.2 file.1 { st with usage := findImports file.2 file.1 st.usage }

/-- The whole analysis over the tree walk's (path, content) yield,
in walk order. -/
def runAnalysis (files : List (Str × Str)) : St :=
  files.foldl processFile St.empty

/-! ## The merged variant (`src/unnamed/part_000`)

`findImports` is identical there; the usage extractor and report differ:
a single instance table, no markup/call split and no suppression. -/

/-- part_000's namespace pattern `${namespaceAlias}\.([A-Za-z0-9_]+)`
(any member access, no call or tag shape required). -/
def mergedNsAt (nsAlias : Str) (s : Str) : Option (Str × Nat) :=
  match matchSym nsAlias s with
  | some n =>
    match s.drop n with
    | '.' :: rest2 =>
      let k := wordCount rest2
      if k = 0 then none else some (rest2.take k, n + 1 + k)
    | _ => none
  | none => none

/-- The class `[\s/>]` of part_000's JSX pattern. -/
def isJsxEnd (c : Char) : Bool := isSpace c || c = '/' || c = '>'

/-- part_000's JSX pattern
`<${component}[\s/>]|<${component}\.[A-Za-z0-9_]+[\s/>]` — ordered
alternation; both branches consume the boundary character. -/
def mergedJSXAt (comp : Str) (s : Str) : Option (Unit × Nat) :=
  match s with
  | '<' :: rest =>
    match matchSym comp rest with
    | some n =>
      match rest.drop n with
      | c :: _ =>
        if isJsxEnd c then some ((), 1 + n + 1)
        else
          match rest.drop n with
          | '.' :: rest2 =>
            let k := wordCount rest2
            if k = 0 then none else
            match rest2.drop k with
            | c2 :: _ => if isJsxEnd c2 then some ((), 1 + n + 1 + k + 1) else none
            | [] => none
          | _ => none
      | [] => none
    | none => none
  | _ => none

/-- part_000's call pattern `\b${component}\(` — word boundary, the
component, an immediate `(`; no lookbehind and no `\s*`. -/
def mergedFuncAt (comp : Str) (prev : Option Char) (s : Str) : Option (Unit × Nat) :=
  if isWordOpt prev = isWordOpt s.head? then none
  else
    match matchSym comp s with
    | some n =>
      match s.drop n with
      | '(' :: _ => some ((), n + 1)
      | _ => none
    | none => none

/-- The two process-wide tables of part_000. -/
structure StM where
  usage : Table
  inst : Table
deriving DecidableEq, Repr

/-- The empty initial state of the merged variant. -/
def StM.empty : StM := ⟨[], []⟩

/-- part_000's `findComponentUsages` loop body for one key. -/
def perComponentMerged (content f : Str) (st : StM) (comp : Str) : StM :=
  match comp with
  | '*' :: nsAlias =>
    { st with
      inst :=
        ((scanAll (fun _ s => mergedNsAt nsAlias s) content).map (fun e => e.2.2)).foldl
          (fun t m => pushInst t (nsAlias ++ '.' :: m) f) st.inst }
  | _ =>
    let st1 : StM :=
      { st with
        inst := (scanAll (fun _ s => mergedJSXAt comp s) content).foldl
          (fun t _ => pushInst t comp f) st.inst }
    { st1 with
      inst := (scanAll (mergedFuncAt comp) content).foldl
        (fun t _ => pushInst t comp f) st1.inst }

/-- part_000's `findComponentUsages`. -/
def findComponentUsagesMerged (content f : Str) (st : StM) : StM :=
  (st.usage.map (fun e => e.1)).foldl (perComponentMerged content f) st

/-- part_000's `processFile`. -/
def processFileMerged (st : StM) (file : Str × Str) : StM :=
  let st1 : StM := { st with usage := findImports file.2 file.1 st.usage }
  if st1.usage.isEmpty then st1 else findComponentUsagesMerged file.2 file.1 st1

/-- part_000's whole analysis. -/
def runAnalysisMerged (files : List (Str × Str)) : StM :=
  files.foldl processFileMerged StM.empty

/-- part_000's "COMPONENTS WITH NO INSTANCES FOUND" filter:
`Object.keys(componentUsage).filter((c) => !componentInstances[c])` —
note: no exclusion of `*`-tagged keys. -/
def unusedComponentsMerged (st : StM) : List Str :=
  (st.usage.map (fun e => e.1)).filter (fun c => (lookupT st.inst c).isNone)

/-! ## The report builder (`generateReport` of `script-func-comp.js`)

JavaScript `Array.prototype.sort` is stable (required by the language
specification) and, with no comparator, orders strings lexicographically
by code unit; both are embedded below (`Char.val` order coincides with
code-unit order on the code points these scripts produce). -/

/-- Decimal rendering of a count. -/
def natStr (n : Nat) : Str := (Nat.repr n).data

/-- Lexicographic code-point order on strings (the default comparator). -/
def strLt : Str → Str → Bool
  | [], [] => false
  | [], _ :: _ => true
  | _ :: _, [] => false
  | a :: as, b :: bs =>
    if a.val < b.val then true
    else if b.val < a.val then false
    else strLt as bs

/-- Insert an element after every element that strictly precedes it
(stability: an equal earlier element stays earlier). -/
def insertSorted (lt : α → α → Bool) (x : α) : List α → List α
  | [] => [x]
  | y :: ys => if lt y x then y :: insertSorted lt x ys else x :: y :: ys

/-- Stable sort with a strict-precedence test, as `Array.prototype.sort`. -/
def stableSort (lt : α → α → Bool) (l : List α) : List α :=
  l.foldr (insertSorted lt) []

/-- `Object.values(t).reduce((sum, inst) => sum + inst.length, 0)`. -/
def totalLen (t : Table) : Nat :=
  (t.map (fun e => e.2.length)).sum

/-- The per-file grouping `fileGroups` of `generateReport`: first
occurrence order, with per-file occurrence counts. -/
def groupCounts (l : List Str) : List (Str × Nat) :=
  l.foldl
    (fun acc f =>
      if acc.any (fun e => e.1 = f) then
        acc.map (fun e => if e.1 = f then (e.1, e.2 + 1) else e)
      else acc ++ [(f, 1)])
    []

/-- The `IMPORTED COMPONENTS` block body: keys sorted ascending, each with
its file set in insertion order. -/
def importsBlock (t : Table) : Str :=
  (stableSort strLt (t.map (fun e => e.1))).foldl
    (fun acc k =>
      let files := (lookupT t k).getD []
      acc ++ k ++ str ":\n"
        ++ str "  Imported in " ++ natStr files.length ++ str " file(s):\n"
        ++ files.foldl (fun a f => a ++ str "    - " ++ f ++ str "\n") []
        ++ str "\n")
    []

/-- One usage block (JSX or function-call): keys sorted by descending
occurrence count (stably), then per-file grouped counts sorted by path. -/
def usageBlock (emptyMsg usedPre usedPost : Str) (t : Table) : Str :=
  if t.isEmpty then emptyMsg
  else
    (stableSort
        (fun a b =>
          ((lookupT t b).getD []).length < ((lookupT t a).getD []).length)
        (t.map (fun e => e.1))).foldl
      (fun acc k =>
        let instances := (lookupT t k).getD []
        let groups := groupCounts instances
        acc ++ k ++ str ":\n"
          ++ usedPre ++ natStr instances.length ++ usedPost
          ++ (stableSort strLt (groups.map (fun e => e.1))).foldl
               (fun a f =>
                 a ++ str "    - " ++ f ++ str " ("
                   ++ natStr ((groups.find? (fun e => e.1 = f)).elim 0 (fun e => e.2))
                   ++ str " instance(s))\n")
               []
          ++ str "\n")
      []

/-- The `usedComponentsSet` of `generateReport`: all keys of either
instance table. -/
def usedComponents (st : St) : List Str :=
  st.instJSX.map (fun e => e.1) ++ st.instFunc.map (fun e => e.1)

/-- The unused filter of `script-func-comp.js`:
`Object.keys(componentUsage).filter((c) => !usedComponentsSet.has(c) && !c.startsWith("*"))`. -/
def unusedComponents (st : St) : List Str :=
  (st.usage.map (fun e => e.1)).filter
    (fun c => !(usedComponents st).contains c && c.head? ≠ some '*')

/-- The `COMPONENTS WITH NO USAGE FOUND` block body. -/
def unusedBlock (st : St) : Str :=
  if (unusedComponents st).isEmpty then str "All imported components are used.\n\n"
  else
    (stableSort strLt (unusedComponents st)).foldl
      (fun acc c => acc ++ c ++ str "\n") []
      ++ str "\n"

/-- The divider line used throughout the report. -/
def divider : Str := str "------------------------------------------\n"

/-- Everything `generateReport()` appends after the timestamp line; a
function of the final analysis state alone. -/
def reportBody (st : St) : Str :=
  str "==========================================\n\n"
    ++ str "SUMMARY\n" ++ divider
    ++ str "Total imported components: " ++ natStr st.usage.length ++ str "\n"
    ++ str "Total component instances: "
      ++ natStr (totalLen st.instJSX + totalLen st.instFunc) ++ str "\n"
    ++ str "  - JSX usage (<Component/>): " ++ natStr (totalLen st.instJSX) ++ str "\n"
    ++ str "  - Function calls (Component()): " ++ natStr (totalLen st.instFunc)
      ++ str "\n\n"
    ++ str "IMPORTED COMPONENTS\n" ++ divider
    ++ importsBlock st.usage
    ++ str "JSX COMPONENT USAGE (<Component />)\n" ++ divider
    ++ usageBlock (str "No JSX usage found.\n\n") (str "  Used as JSX ")
         (str " time(s) in:\n") st.instJSX
    ++ str "FUNCTION CALL USAGE (Component())\n" ++ divider
    ++ usageBlock (str "No function call usage found.\n\n")
         (str "  Called as function ") (str " time(s) in:\n") st.instFunc
    ++ str "COMPONENTS WITH NO USAGE FOUND\n" ++ divider
    ++ unusedBlock st

/-- `generateReport()` of `script-func-comp.js`, with the timestamp
`new Date().toISOString()` passed in as `ts`: the title line, the
`Generated on:` line holding the timestamp, then the state-determined
body. -/
def generateReport (ts : Str) (st : St) : Str :=
  str "Component Usage Report for \"your-package-name\" package\n"
    ++ (str "Generated on: " ++ ts ++ str "\n")
    ++ reportBody st

/-- The full run observed at its output: walk yield to report text. -/
def fullReport (ts : Str) (files : List (Str × Str)) : Str :=
  generateReport ts (runAnalysis files)

/-! ## Derived notions used in the statements -/

/-- A word-like symbol name: every character is in `[A-Za-z0-9_]`.  The
names the scripts are written for (React components, namespace aliases)
are of this shape; it rules out regex metacharacters in the spliced
patterns. -/
def WordName (s : Str) : Prop := ∀ c ∈ s, isWordChar c = true

instance : DecidablePred WordName := fun s =>
  inferInstanceAs (Decidable (∀ c ∈ s, isWordChar c = true))

/-- The set of symbol-table keys a file's text contributes through
`findImports`, independent of the file path and of the prior table. -/
def importKeys (c : Str) : List Str := keysOf (findImports c [] [])

/-- A substring test, used to state claims about literal text shapes. -/
def hasSub (pat : Str) : Str → Bool
  | [] => (matchLit pat []).isSome
  | c :: cs => (matchLit pat (c :: cs)).isSome || hasSub pat cs

/-! ## Character-class facts -/

theorem word_not_space {c : Char} (h : isWordChar c = true) : isSpace c = false := by
  by_contra hs
  rw [Bool.not_eq_false] at hs
  simp only [isSpace, Bool.or_eq_true, decide_eq_true_eq] at hs
  rcases hs with ((((rfl | rfl) | rfl) | rfl) | rfl) | rfl <;> exact absurd h (by decide)

theorem word_ne {c : Char} (h : isWordChar c = true) {d : Char}
    (hd : isWordChar d = false) : c ≠ d := by
  rintro rfl
  rw [h] at hd
  cases hd

/-! ## Table lemmas -/

theorem lookupT_addImport_other {t : Table} {k k' f : Str} (h : k' ≠ k) :
    lookupT (addImport t k f) k' = lookupT t k' := by
  induction t with
  | nil =>
    simp only [addImport, lookupT]
    rw [if_neg (fun hc : k = k' => h hc.symm)]
  | cons e t ih =>
    obtain ⟨ek, ev⟩ := e
    by_cases he : ek = k
    · simp only [addImport, if_pos he, lookupT]
      rw [if_neg (fun hc : ek = k' => h (hc.symm.trans he)),
        if_neg (fun hc : ek = k' => h (hc.symm.trans he))]
    · simp only [addImport, if_neg he, lookupT]
      by_cases he' : ek = k'
      · rw [if_pos he', if_pos he']
      · rw [if_neg he', if_neg he']
        exact ih

theorem mem_filesAt_addImport_self {t : Table} {k f : Str} :
    ∃ fs, lookupT (addImport t k f) k = some fs ∧ f ∈ fs := by
  induction t with
  | nil => exact ⟨[f], by simp [addImport, lookupT], by simp⟩
  | cons e t ih =>
    by_cases he : e.1 = k
    · by_cases hc : f ∈ e.2
      · exact ⟨e.2, by simp [addImport, lookupT, he, hc], hc⟩
      · exact ⟨e.2 ++ [f], by simp [addImport, lookupT, he, hc], by simp⟩
    · simpa [addImport, lookupT, he] using ih

theorem mem_filesAt_addImport {t : Table} {k k' f f' : Str}
    (h : f' ∈ filesAt t k') : f' ∈ filesAt (addImport t k f) k' := by
  induction t with
  | nil => simp [filesAt, lookupT] at h
  | cons e t ih =>
    obtain ⟨ek, ev⟩ := e
    by_cases he : ek = k
    · by_cases he' : ek = k'
      · simp only [filesAt, lookupT, if_pos he', Option.getD_some] at h
        simp only [addImport, if_pos he, filesAt, lookupT, if_pos he', Option.getD_some]
        by_cases hc : ev.contains f
        · rw [if_pos hc]
          exact h
        · rw [if_neg hc]
          exact List.mem_append_left _ h
      · simp only [filesAt, lookupT, if_neg he'] at h
        simp only [addImport, if_pos he, filesAt, lookupT, if_neg he']
        exact h
    · simp only [addImport, if_neg he, filesAt, lookupT]
      by_cases he' : ek = k'
      · simp only [filesAt, lookupT, if_pos he'] at h
        rw [if_pos he']
        exact h
      · simp only [filesAt, lookupT, if_neg he'] at h
        rw [if_neg he']
        exact ih h

theorem isSome_lookupT_addImport {t : Table} {k k' f : Str}
    (h : (lookupT t k').isSome) : (lookupT (addImport t k f) k').isSome := by
  by_cases hk : k' = k
  · subst hk
    obtain ⟨fs, hfs, _⟩ := mem_filesAt_addImport_self (t := t) (k := k') (f := f)
    simp [hfs]
  · rwa [lookupT_addImport_other hk]

theorem keysOf_addImport {t : Table} {k f : Str} :
    (k ∈ keysOf t ∧ keysOf (addImport t k f) = keysOf t) ∨
    (k ∉ keysOf t ∧ keysOf (addImport t k f) = keysOf t ++ [k]) := by
  induction t with
  | nil => simp [addImport, keysOf]
  | cons e t ih =>
    by_cases he : e.1 = k
    · left
      constructor
      · simp [keysOf, he]
      · simp [addImport, if_pos he, keysOf]
    · rcases ih with ⟨hm, heq⟩ | ⟨hm, heq⟩
      · left
        refine ⟨by simp [keysOf] at hm ⊢; exact Or.inr hm, ?_⟩
        simp only [addImport, if_neg he, keysOf, List.map_cons] at heq ⊢
        rw [heq]
      · right
        refine ⟨?_, ?_⟩
        · simp only [keysOf, List.map_cons, List.mem_cons] at hm ⊢
          rintro (h | h)
          · exact he h.symm
          · exact hm h
        · simp only [addImport, if_neg he, keysOf, List.map_cons, List.map_append] at heq ⊢
          rw [heq, List.cons_append]

theorem mem_keysOf_addImport {t : Table} {k k' f : Str} :
    k' ∈ keysOf (addImport t k f) ↔ k' ∈ keysOf t ∨ k' = k := by
  rcases keysOf_addImport (t := t) (k := k) (f := f) with ⟨hm, heq⟩ | ⟨hm, heq⟩
  · rw [heq]
    constructor
    · exact Or.inl
    · rintro (h | rfl)
      · exact h
      · exact hm
  · rw [heq]
    simp

theorem nodup_keysOf_addImport {t : Table} {k f : Str}
    (h : (keysOf t).Nodup) : (keysOf (addImport t k f)).Nodup := by
  rcases keysOf_addImport (t := t) (k := k) (f := f) with ⟨_, heq⟩ | ⟨hm, heq⟩
  · rwa [heq]
  · rw [heq]
    refine List.Nodup.append h (List.nodup_singleton k) ?_
    intro a ha hb
    rw [List.mem_singleton] at hb
    exact hm (hb ▸ ha)

theorem filesAt_pushInst_self {t : Table} {k f : Str} :
    filesAt (pushInst t k f) k = filesAt t k ++ [f] := by
  induction t with
  | nil => simp [pushInst, filesAt, lookupT]
  | cons e t ih =>
    by_cases he : e.1 = k
    · simp [pushInst, if_pos he, filesAt, lookupT]
    · simpa [pushInst, if_neg he, filesAt, lookupT, he] using ih

theorem filesAt_pushInst_other {t : Table} {k k' f : Str} (h : k' ≠ k) :
    filesAt (pushInst t k f) k' = filesAt t k' := by
  induction t with
  | nil =>
    simp only [pushInst, filesAt, lookupT]
    rw [if_neg (fun hc : k = k' => h hc.symm)]
  | cons e t ih =>
    obtain ⟨ek, ev⟩ := e
    by_cases he : ek = k
    · simp only [pushInst, if_pos he, filesAt, lookupT]
      rw [if_neg (fun hc : ek = k' => h (hc.symm.trans he)),
        if_neg (fun hc : ek = k' => h (hc.symm.trans he))]
    · simp only [pushInst, if_neg he, filesAt, lookupT]
      by_cases he' : ek = k'
      · rw [if_pos he', if_pos he']
      · rw [if_neg he', if_neg he']
        exact ih

theorem filesAt_pushInstN_self {t : Table} {k f : Str} :
    ∀ n, filesAt (pushInstN t k f n) k = filesAt t k ++ List.replicate n f := by
  intro n
  induction n generalizing t with
  | zero => simp [pushInstN]
  | succ n ih =>
    rw [pushInstN, ih, filesAt_pushInst_self]
    simp [List.replicate_succ]

theorem filesAt_pushInstN_other {t : Table} {k k' f : Str} (h : k' ≠ k) :
    ∀ n, filesAt (pushInstN t k f n) k' = filesAt t k' := by
  intro n
  induction n generalizing t with
  | zero => simp [pushInstN]
  | succ n ih => rw [pushInstN, ih, filesAt_pushInst_other h]

/-- Fold preservation: an invariant kept by every step is kept by `foldl`. -/
theorem foldl_preserve {P : γ → Prop} {step : γ → β → γ}
    (h : ∀ g b, P g → P (step g b)) :
    ∀ (l : List β) (g : γ), P g → P (l.foldl step g)
  | [], _, hg => hg
  | b :: l, g, hg => foldl_preserve h l (step g b) (h g b hg)

/-! ## Scan and matcher inversion lemmas -/

/-- Everything the scan emits comes from a firing of the matcher at the
emitted site. -/
theorem mem_scanP {α : Type} {f : Option Char → Str → Option (α × Nat)} :
    ∀ {fuel : Nat} {prev : Option Char} {s : Str} {e},
      e ∈ scanP f fuel prev s → ∃ n, f e.1 e.2.1 = some (e.2.2, n) := by
  intro fuel
  induction fuel with
  | zero =>
    intro prev s e h
    simp [scanP] at h
  | succ fuel ih =>
    intro prev s e h
    cases s with
    | nil => simp [scanP] at h
    | cons c cs =>
      cases hf : f prev (c :: cs) with
      | none =>
        simp only [scanP, hf] at h
        exact ih h
      | some an =>
        obtain ⟨a, n⟩ := an
        simp only [scanP, hf, List.mem_cons] at h
        rcases h with rfl | h
        · exact ⟨n, hf⟩
        · exact ih h

theorem mem_scanAll {α : Type} {f : Option Char → Str → Option (α × Nat)}
    {s : Str} {e} (h : e ∈ scanAll f s) : ∃ n, f e.1 e.2.1 = some (e.2.2, n) :=
  mem_scanP h

theorem matchLit_some :
    ∀ {p s : Str} {n}, matchLit p s = some n → ∃ rest, s = p ++ rest ∧ n = p.length := by
  intro p
  induction p with
  | nil =>
    intro s n h
    simp only [matchLit, Option.some.injEq] at h
    exact ⟨s, rfl, h.symm⟩
  | cons a p ih =>
    intro s n h
    cases s with
    | nil => simp [matchLit] at h
    | cons c cs =>
      simp only [matchLit] at h
      by_cases hac : a = c
      · rw [if_pos hac] at h
        cases hm : matchLit p cs with
        | none => rw [hm] at h; simp at h
        | some m =>
          rw [hm] at h
          simp at h
          obtain ⟨rest, hrest, hlen⟩ := ih hm
          exact ⟨rest, by rw [hrest, hac, List.cons_append],
            by simp only [List.length_cons]; omega⟩
      · rw [if_neg hac] at h
        cases h

theorem matchSym_some {p : Str} (hdot : '.' ∉ p) :
    ∀ {s : Str} {n}, matchSym p s = some n → ∃ rest, s = p ++ rest ∧ n = p.length := by
  induction p with
  | nil =>
    intro s n h
    simp only [matchSym, Option.some.injEq] at h
    exact ⟨s, rfl, h.symm⟩
  | cons a p ih =>
    intro s n h
    cases s with
    | nil => simp [matchSym] at h
    | cons c cs =>
      simp only [matchSym] at h
      have hane : a ≠ '.' := fun hc => hdot (hc ▸ List.mem_cons_self a p)
      by_cases hac : a = c
      · rw [if_pos (by simp [hac])] at h
        cases hm : matchSym p cs with
        | none => rw [hm] at h; simp at h
        | some m =>
          rw [hm] at h
          simp at h
          obtain ⟨rest, hrest, hlen⟩ :=
            ih (fun hc => hdot (List.mem_cons_of_mem a hc)) hm
          exact ⟨rest, by rw [hrest, hac, List.cons_append],
            by simp only [List.length_cons]; omega⟩
      · rw [if_neg (by simp [hac, hane])] at h
        cases h

theorem WordName.not_dot {p : Str} (h : WordName p) : '.' ∉ p := fun hc =>
  absurd (h '.' hc) (by decide)

theorem WordName.not_star {p : Str} (h : WordName p) : '*' ∉ p := fun hc =>
  absurd (h '*' hc) (by decide)

theorem mem_filesAt_iff {t : Table} {k f : Str} :
    f ∈ filesAt t k ↔ ∃ fs, lookupT t k = some fs ∧ f ∈ fs := by
  unfold filesAt
  cases h : lookupT t k with
  | none => simp
  | some fs => simp

/-! ## Split and trim computation lemmas -/

theorem matchLit_self_append : ∀ (p rest : Str), matchLit p (p ++ rest) = some p.length := by
  intro p
  induction p with
  | nil => intro rest; rfl
  | cons c p ih =>
    intro rest
    simp [matchLit, ih rest]

theorem matchLit_ne_head {pc c : Char} {p s : Str} (h : pc ≠ c) :
    matchLit (pc :: p) (c :: s) = none := by
  simp [matchLit, h]

theorem splitOnChar_no_sep {sep : Char} :
    ∀ {s : Str}, (∀ c ∈ s, c ≠ sep) → splitOnChar sep s = [s] := by
  intro s
  induction s with
  | nil => intro _; rfl
  | cons c cs ih =>
    intro h
    have hc : ¬ (c = sep) := h c (List.mem_cons_self c cs)
    rw [splitOnChar, if_neg hc, ih (fun d hd => h d (List.mem_cons_of_mem c hd))]

theorem splitOnChar_junction {sep : Char} :
    ∀ {a b : Str}, (∀ c ∈ a, c ≠ sep) →
      splitOnChar sep (a ++ sep :: b) = a :: splitOnChar sep b := by
  intro a
  induction a with
  | nil =>
    intro b _
    simp [splitOnChar]
  | cons c a ih =>
    intro b h
    have hc : ¬ (c = sep) := h c (List.mem_cons_self c a)
    rw [List.cons_append, splitOnChar, if_neg hc,
      ih (fun d hd => h d (List.mem_cons_of_mem c hd))]

theorem splitOnStrAux_no_sep {sc : Char} {sep' : Str} :
    ∀ {s : Str} {fuel : Nat}, s.length ≤ fuel → (∀ c ∈ s, c ≠ sc) →
      splitOnStrAux (sc :: sep') fuel s = [s] := by
  intro s
  induction s with
  | nil =>
    intro fuel _ _
    cases fuel <;> rfl
  | cons c cs ih =>
    intro fuel hlen h
    cases fuel with
    | zero => simp at hlen
    | succ fuel =>
      have hc : c ≠ sc := h c (List.mem_cons_self c cs)
      simp only [splitOnStrAux, matchLit_ne_head (fun hcc => hc hcc.symm)]
      rw [ih (by simp at hlen; omega) (fun d hd => h d (List.mem_cons_of_mem c hd))]

theorem splitOnStrAux_junction {sc : Char} {sep' : Str} :
    ∀ {a : Str} {b : Str} {fuel : Nat},
      (a ++ (sc :: sep') ++ b).length ≤ fuel →
      (∀ c ∈ a, c ≠ sc) → (∀ c ∈ b, c ≠ sc) →
      splitOnStrAux (sc :: sep') fuel (a ++ (sc :: sep') ++ b) = [a, b] := by
  intro a
  induction a with
  | nil =>
    intro b fuel hlen hb hbb
    cases fuel with
    | zero => simp at hlen
    | succ fuel =>
      have hlb : b.length ≤ fuel := by
        simp only [List.nil_append, List.cons_append, List.length_cons,
          List.length_append] at hlen
        omega
      have hm : matchLit (sc :: sep') (sc :: (sep' ++ b)) = some (sep'.length + 1) := by
        have h0 := matchLit_self_append (sc :: sep') b
        simpa using h0
      simp only [List.nil_append, List.cons_append, splitOnStrAux, List.append_eq, hm]
      rw [if_pos (by omega)]
      have hdrop : (sc :: (sep' ++ b)).drop (sep'.length + 1) = b := by
        rw [List.drop_succ_cons, List.drop_left]
      rw [hdrop, splitOnStrAux_no_sep hlb hbb]
  | cons c a ih =>
    intro b fuel hlen hb hbb
    cases fuel with
    | zero => simp at hlen
    | succ fuel =>
      have hc : c ≠ sc := hb c (List.mem_cons_self c a)
      have ihres := @ih b fuel
        (by simp only [List.cons_append, List.length_cons] at hlen; omega)
        (fun d hd => hb d (List.mem_cons_of_mem c hd)) hbb
      simp only [List.cons_append, splitOnStrAux, List.append_eq,
        matchLit_ne_head (fun hcc => hc hcc.symm)]
      simp only [List.cons_append] at ihres
      rw [ihres]

theorem splitOnStr_junction {a b : Str}
    (ha : ∀ c ∈ a, c ≠ ' ') (hb : ∀ c ∈ b, c ≠ ' ') :
    splitOnStr (str " as ") (a ++ str " as " ++ b) = [a, b] :=
  splitOnStrAux_junction le_rfl ha hb

theorem splitOnStr_no_space {s : Str} (h : ∀ c ∈ s, c ≠ ' ') :
    splitOnStr (str " as ") s = [s] :=
  splitOnStrAux_no_sep le_rfl h

theorem trimLeft_eq_self {s : Str}
    (h : ∀ c, s.head? = some c → isSpace c = false) : trimLeft s = s := by
  cases s with
  | nil => rfl
  | cons c cs => rw [trimLeft, h c rfl, if_neg (by simp)]

theorem head?_reverse_eq : ∀ (s : Str), s.reverse.head? = s.getLast?
  | [] => rfl
  | [c] => rfl
  | c :: e :: es => by
    rw [List.getLast?_cons_cons, ← head?_reverse_eq (e :: es), List.reverse_cons]
    cases h : (e :: es).reverse with
    | nil => simp at h
    | cons d ds => rfl

theorem trimStr_eq_self {s : Str}
    (h1 : ∀ c, s.head? = some c → isSpace c = false)
    (h2 : ∀ c, s.getLast? = some c → isSpace c = false) : trimStr s = s := by
  unfold trimStr
  rw [trimLeft_eq_self h1]
  rw [trimLeft_eq_self (fun c hc => h2 c (by rwa [head?_reverse_eq s] at hc)),
    List.reverse_reverse]

theorem WordName.head_not_space {s : Str} (h : WordName s) :
    ∀ c, s.head? = some c → isSpace c = false := by
  intro c hc
  exact word_not_space (h c (by cases s with
    | nil => cases hc
    | cons d ds =>
      simp only [List.head?_cons, Option.some.injEq] at hc
      exact hc ▸ List.mem_cons_self d ds))

theorem WordName.getLast_not_space {s : Str} (h : WordName s) :
    ∀ c, s.getLast? = some c → isSpace c = false := by
  intro c hc
  have := List.mem_getLast?_eq_getLast (by exact hc)
  obtain ⟨hne, rfl⟩ := this
  exact word_not_space (h _ (List.getLast_mem hne))

theorem WordName.trim_eq {s : Str} (h : WordName s) : trimStr s = s :=
  trimStr_eq_self h.head_not_space h.getLast_not_space

theorem WordName.no_space {s : Str} (h : WordName s) : ∀ c ∈ s, c ≠ ' ' :=
  fun c hc => word_ne (h c hc) (by decide)

theorem WordName.no_comma {s : Str} (h : WordName s) : ∀ c ∈ s, c ≠ ',' :=
  fun c hc => word_ne (h c hc) (by decide)

theorem WordName.no_colon {s : Str} (h : WordName s) : ∀ c ∈ s, c ≠ ':' :=
  fun c hc => word_ne (h c hc) (by decide)

/-! ## Key-derivation lemmas for rename entries -/

theorem head?_append_left {a b : Str} (h : a ≠ []) : (a ++ b).head? = a.head? := by
  cases a with
  | nil => exact absurd rfl h
  | cons c cs => rfl

theorem trimStr_wordlike_append {orig mid al : Str}
    (hwo : WordName orig) (hwa : WordName al) (hno : orig ≠ []) (hna : al ≠ []) :
    trimStr (orig ++ mid ++ al) = orig ++ mid ++ al := by
  apply trimStr_eq_self
  · intro c hc
    rw [head?_append_left (by simp [hno]), head?_append_left hno] at hc
    cases orig with
    | nil => exact absurd rfl hno
    | cons o os =>
      simp only [List.head?_cons, Option.some.injEq] at hc
      exact hc ▸ word_not_space (hwo o (List.mem_cons_self o os))
  · intro c hc
    rw [List.getLast?_append_of_ne_nil _ hna] at hc
    have := List.mem_getLast?_eq_getLast (by exact hc)
    obtain ⟨hne, rfl⟩ := this
    exact word_not_space (hwa _ (List.getLast_mem hne))

theorem namedKey_rename {orig al : Str}
    (hwo : WordName orig) (hwa : WordName al) (hno : orig ≠ []) (hna : al ≠ []) :
    namedKey (orig ++ str " as " ++ al) = orig := by
  unfold namedKey
  rw [trimStr_wordlike_append hwo hwa hno hna,
    splitOnStr_junction hwo.no_space hwa.no_space]
  exact hwo.trim_eq

theorem requireKey_colon {orig al : Str}
    (hwo : WordName orig) (hwa : WordName al) (hno : orig ≠ []) (hna : al ≠ []) :
    requireKey (orig ++ ':' :: al) = orig := by
  unfold requireKey
  have hw : orig ++ ':' :: al = orig ++ [':'] ++ al := by simp
  have htrim : trimStr (orig ++ ':' :: al) = orig ++ ':' :: al := by
    rw [hw]
    exact trimStr_wordlike_append hwo hwa hno hna
  rw [htrim]
  have hnos : ∀ c ∈ orig ++ ':' :: al, c ≠ ' ' := by
    intro c hc
    rcases List.mem_append.mp hc with h1 | h2
    · exact hwo.no_space c h1
    · rcases List.mem_cons.mp h2 with rfl | h3
      · decide
      · exact hwa.no_space c h3
  rw [splitOnStr_no_space hnos]
  simp only [List.headD_cons]
  rw [splitOnChar_junction hwo.no_colon]
  simp only [List.headD_cons]
  exact hwo.trim_eq

/-! ## Phase preservation lemmas -/

theorem mem_filesAt_processDefault {caps : List Str} {f f' K : Str} {t : Table}
    (h : f' ∈ filesAt t K) : f' ∈ filesAt (processDefault f caps t) K := by
  refine foldl_preserve (P := fun t => f' ∈ filesAt t K) ?_ caps t h
  intro t cap hm
  by_cases hp : trimStr cap = pkgS
  · simpa [hp] using hm
  · simpa [hp] using mem_filesAt_addImport hm

theorem mem_filesAt_processRequireDefault {caps : List Str} {f f' K : Str} {t : Table}
    (h : f' ∈ filesAt t K) : f' ∈ filesAt (processRequireDefault f caps t) K := by
  refine foldl_preserve (P := fun t => f' ∈ filesAt t K) ?_ caps t h
  intro t cap hm
  exact mem_filesAt_addImport hm

/-! ## Claims C3 and C9: the self-reference guard and its absence -/

/-- C3: on the default-ES-import path, every (trimmed) captured binding
name is added to the symbol table with the current file in its set —
unless it equals the target package name, in which case that match
creates no entry for the package-name key. -/
theorem claim_C3 (caps : List Str) (f : Str) (t : Table) :
    (∀ cap ∈ caps, trimStr cap ≠ pkgS →
      f ∈ filesAt (processDefault f caps t) (trimStr cap)) ∧
    (lookupT t pkgS = none → lookupT (processDefault f caps t) pkgS = none) := by
  induction caps generalizing t with
  | nil =>
    refine ⟨fun cap hc _ => absurd hc (List.not_mem_nil cap), fun h => h⟩
  | cons cap caps ih =>
    have hstep : processDefault f (cap :: caps) t =
        processDefault f caps
          (if trimStr cap = pkgS then t else addImport t (trimStr cap) f) := by
      simp only [processDefault, List.foldl_cons]
    constructor
    · intro c hc hcne
      rcases List.mem_cons.mp hc with rfl | hmem
      · rw [hstep, if_neg hcne]
        refine mem_filesAt_processDefault ?_
        obtain ⟨fs, hfs, hf⟩ := mem_filesAt_addImport_self (t := t) (k := trimStr c) (f := f)
        exact mem_filesAt_iff.mpr ⟨fs, hfs, hf⟩
      · rw [hstep]
        exact (ih _).1 c hmem hcne
    · intro hnone
      rw [hstep]
      refine (ih _).2 ?_
      by_cases hp : trimStr cap = pkgS
      · rwa [if_pos hp]
      · rw [if_neg hp, lookupT_addImport_other (fun hc => hp hc.symm)]
        exact hnone

/-- C3 witness: a concrete run of the default-import phase on captures
extracted from concrete file texts, one with an ordinary name and one
with the package name itself. -/
theorem claim_C3_witness :
    str "f1" ∈ filesAt (processDefault (str "f1")
      (defaultMatches (str "import Foo from \"your-package-name\"")) []) (str "Foo") ∧
    lookupT (processDefault (str "f1")
      (defaultMatches (str "import your-package-name from \"your-package-name\""))
      []) pkgS = none := by
  constructor
  · have h := (claim_C3 (defaultMatches (str "import Foo from \"your-package-name\""))
      (str "f1") []).1 (str "Foo") (by decide) (by decide)
    rw [show trimStr (str "Foo") = str "Foo" from by decide] at h
    exact h
  · exact (claim_C3 (defaultMatches
      (str "import your-package-name from \"your-package-name\"")) (str "f1") []).2
      (by decide)

/-- C9: on the default-`require` path, every (trimmed) captured binding
name is added to the symbol table with the current file in its set —
with no self-reference check of any kind. -/
theorem claim_C9 (caps : List Str) (f : Str) (t : Table) :
    ∀ cap ∈ caps, f ∈ filesAt (processRequireDefault f caps t) (trimStr cap) := by
  induction caps generalizing t with
  | nil => exact fun cap hc => absurd hc (List.not_mem_nil cap)
  | cons cap caps ih =>
    have hstep : processRequireDefault f (cap :: caps) t =
        processRequireDefault f caps (addImport t (trimStr cap) f) := by
      simp only [processRequireDefault, List.foldl_cons]
    intro c hc
    rcases List.mem_cons.mp hc with rfl | hmem
    · rw [hstep]
      refine mem_filesAt_processRequireDefault ?_
      obtain ⟨fs, hfs, hf⟩ := mem_filesAt_addImport_self (t := t) (k := trimStr c) (f := f)
      exact mem_filesAt_iff.mpr ⟨fs, hfs, hf⟩
    · rw [hstep]
      exact ih _ c hmem

/-- C9 witness: the capture of `const your-package-name =
require("your-package-name")` equals the package name itself, and is
still registered — the guard of the default-import path is absent here. -/
theorem claim_C9_witness :
    str "f1" ∈ filesAt (processRequireDefault (str "f1")
      (requireDefaultMatches
        (str "const your-package-name = require(\"your-package-name\")")) []) pkgS := by
  have h := claim_C9 (requireDefaultMatches
      (str "const your-package-name = require(\"your-package-name\")")) (str "f1") []
    pkgS (by decide)
  rw [show trimStr pkgS = pkgS from by decide] at h
  exact h

/-! ## Claim C8: determinism up to the timestamp line -/

/-- C8: two runs of the whole analysis on the same walk yield (same
files, contents and order; the embedding of the pipeline is a pure
function of that yield) produce reports that are byte-identical except
for the `Generated on:` timestamp line. -/
theorem claim_C8 (files : List (Str × Str)) (ts1 ts2 : Str) :
    ∃ pre post,
      fullReport ts1 files = pre ++ (str "Generated on: " ++ ts1 ++ str "\n") ++ post ∧
      fullReport ts2 files = pre ++ (str "Generated on: " ++ ts2 ++ str "\n") ++ post :=
  ⟨str "Component Usage Report for \"your-package-name\" package\n",
    reportBody (runAnalysis files), rfl, rfl⟩

/-! ## Matcher inversion lemmas for the usage patterns -/

theorem wordCount_take_word : ∀ (s : Str), ∀ c ∈ s.take (wordCount s), isWordChar c = true := by
  intro s
  induction s with
  | nil => intro c hc; simp at hc
  | cons d ds ih =>
    intro c hc
    by_cases hd : isWordChar d
    · rw [wordCount, if_pos hd, List.take_succ_cons] at hc
      rcases List.mem_cons.mp hc with rfl | hc'
      · exact hd
      · exact ih c hc'
    · rw [wordCount, if_neg hd, List.take_zero] at hc
      simp at hc

theorem plainJSXAt_inv {comp s : Str} {u : Unit} {n : Nat} (hdot : '.' ∉ comp)
    (h : plainJSXAt comp s = some (u, n)) :
    ∃ rest, s = '<' :: (comp ++ rest) ∧ isWordDash (rest.headD ' ') = false := by
  unfold plainJSXAt at h
  split at h
  case _ rest =>
    cases hm : matchSym comp rest with
    | none => simp [hm] at h
    | some nn =>
      obtain ⟨tail, htail, hnn⟩ := matchSym_some hdot hm
      subst hnn
      subst htail
      simp only [hm] at h
      rw [List.drop_left] at h
      by_cases hwd : isWordDash (tail.headD ' ') = true
      · rw [if_pos hwd] at h
        cases h
      · exact ⟨tail, rfl, by rwa [Bool.not_eq_true] at hwd⟩
  case _ => cases h

theorem wordCount_le_length : ∀ (s : Str), wordCount s ≤ s.length := by
  intro s
  induction s with
  | nil => simp [wordCount]
  | cons d ds ih =>
    rw [wordCount]
    by_cases hd : isWordChar d
    · rw [if_pos hd]
      simp only [List.length_cons]
      omega
    · rw [if_neg hd]
      simp

theorem nsJSXAt_inv {al s mem : Str} {n : Nat} (hdot : '.' ∉ al)
    (h : nsJSXAt al s = some (mem, n)) :
    ∃ rest, s = '<' :: (al ++ '.' :: (mem ++ rest)) ∧ mem ≠ [] ∧
      WordName mem ∧ isWordDash (rest.headD ' ') = false := by
  unfold nsJSXAt at h
  split at h
  case _ rest =>
    cases hm : matchSym al rest with
    | none => simp [hm] at h
    | some nn =>
      obtain ⟨tail, htail, hnn⟩ := matchSym_some hdot hm
      subst hnn
      subst htail
      simp only [hm] at h
      rw [List.drop_left] at h
      split at h
      case _ rest2 =>
        by_cases hk : wordCount rest2 = 0
        · rw [if_pos hk] at h
          cases h
        · rw [if_neg hk] at h
          by_cases hwd : isWordDash ((rest2.drop (wordCount rest2)).headD ' ') = true
          · rw [if_pos hwd] at h
            cases h
          · rw [if_neg hwd] at h
            cases hlc : lazyCloseLen (rest2.drop (wordCount rest2)) with
            | none => simp [hlc] at h
            | some m =>
              simp only [hlc, Option.some.injEq, Prod.mk.injEq] at h
              obtain ⟨hmem, _⟩ := h
              refine ⟨rest2.drop (wordCount rest2), ?_, ?_, ?_, ?_⟩
              · rw [← hmem, List.take_append_drop]
              · rw [← hmem]
                intro htk
                apply hk
                have hlen := congrArg List.length htk
                have hwle := wordCount_le_length rest2
                simp only [List.length_take, List.length_nil] at hlen
                omega
              · rw [← hmem]
                exact fun c hc => wordCount_take_word rest2 c hc
              · rwa [Bool.not_eq_true] at hwd
      case _ => cases h
  case _ => cases h

theorem plainFuncAt_inv {comp : Str} {prev : Option Char} {s : Str} {u : Unit} {n : Nat}
    (hw : WordName comp) (hne : comp ≠ [])
    (h : plainFuncAt comp prev s = some (u, n)) :
    prev ≠ some '.' ∧ prev ≠ some '<' ∧ isWordOpt prev = false ∧
    ∃ rest, s = comp ++ rest ∧ (rest.drop (wsCount rest)).head? = some '(' := by
  unfold plainFuncAt at h
  by_cases hlb : (prev = some '.' || prev = some '<') = true
  · rw [if_pos hlb] at h
    cases h
  · rw [if_neg hlb] at h
    simp only [Bool.or_eq_true, decide_eq_true_eq] at hlb
    push_neg at hlb
    by_cases hb : isWordOpt prev = isWordOpt s.head?
    · rw [if_pos hb] at h
      cases h
    · rw [if_neg hb] at h
      cases hm : matchSym comp s with
      | none => simp [hm] at h
      | some nn =>
        obtain ⟨rest, hrest, hnn⟩ := matchSym_some hw.not_dot hm
        subst hnn
        subst hrest
        simp only [hm] at h
        rw [List.drop_left] at h
        refine ⟨hlb.1, hlb.2, ?_, rest, rfl, ?_⟩
        · cases comp with
          | nil => exact absurd rfl hne
          | cons c0 cs0 =>
            have hhead : isWordOpt ((c0 :: cs0) ++ rest : Str).head? = true :=
              hw c0 (List.mem_cons_self c0 cs0)
            rw [hhead] at hb
            cases hval : isWordOpt prev with
            | false => rfl
            | true => exact absurd hval hb
        · split at h
          case _ heq =>
            rw [heq]
            rfl
          case _ => cases h

/-! ## Claim C4: shape of plain call-style match sites (amended) -/

/-- C4 (amended): every site recorded by the plain call-style scan of
`script-func-comp.js` has the symbol at a word boundary, not preceded by
`.` or `<` (nor by any word character), followed by optional whitespace
and then `(` — an occurrence `obj.S(` can never be such a site since its
preceding character is `.`.  (The original claim's "immediately followed
by `(`" fails because of the `\s*` in the pattern; see the
counterexample.) -/
theorem claim_C4 (S content : Str) (hS : WordName S) (hSne : S ≠ []) :
    ∀ e ∈ funcSites S content,
      e.1 ≠ some '.' ∧ e.1 ≠ some '<' ∧ isWordOpt e.1 = false ∧
      ∃ rest, e.2.1 = S ++ rest ∧ (rest.drop (wsCount rest)).head? = some '(' := by
  intro e he
  obtain ⟨n, hfire⟩ := mem_scanAll he
  exact plainFuncAt_inv hS hSne hfire

/-- C4 witness: the characterization applied at the one site the call
scan yields on `Button ()` — no preceding `.`/`<`/word character, and
the suffix is the symbol, whitespace, then `(`. -/
theorem claim_C4_witness :
    (none : Option Char) ≠ some '.' ∧ (none : Option Char) ≠ some '<' ∧
    isWordOpt none = false ∧
    ∃ rest, str "Button ()" = str "Button" ++ rest ∧
      (rest.drop (wsCount rest)).head? = some '(' :=
  claim_C4 (str "Button") (str "Button ()") (by decide) (by decide)
    (none, str "Button ()", ()) (by decide)

/-- C4 counterexample: in `script-func-comp.js` the call pattern is
`(?<![.<])\b S \s*\(`, so `Button ()` — with a space before the
parenthesis — is recorded as a call-style usage even though no occurrence
of `Button` is immediately followed by `(` anywhere in the file. -/
theorem claim_C4_counterexample :
    filesAt (runAnalysis [(str "f1",
      str "import \x7b Button \x7d from \"your-package-name\"\nButton ()")]).instFunc
      (str "Button") = [str "f1"] ∧
    hasSub (str "Button(")
      (str "import \x7b Button \x7d from \"your-package-name\"\nButton ()") = false := by
  exact ⟨by decide, by decide⟩

/-! ## Claim C5: markup matching never fires on closing tags or longer names -/

/-- C5: every plain markup site starts with `<` immediately followed by
the full symbol and then a non-`[\w-]` boundary (so `</S>` is never a
site, and `<T` with `S` a strict prefix of the identifier `T` is not
counted for `S`); every namespace markup site starts with
`<alias.Member` for a maximal nonempty member word followed by a
non-`[\w-]` boundary, and is likewise never a closing-tag form. -/
theorem claim_C5 (S content : Str) (hS : WordName S) (hSne : S ≠ []) :
    (∀ e ∈ jsxSites S content, ∃ rest,
        e.2.1 = '<' :: (S ++ rest) ∧ isWordDash (rest.headD ' ') = false) ∧
    (∀ e ∈ jsxSites S content, ¬ ∃ rest, e.2.1 = '<' :: ('/' :: rest)) ∧
    (∀ e ∈ nsJSXSites S content, ∃ rest,
        e.2.1 = '<' :: (S ++ '.' :: (e.2.2 ++ rest)) ∧ e.2.2 ≠ [] ∧
        WordName e.2.2 ∧ isWordDash (rest.headD ' ') = false) ∧
    (∀ e ∈ nsJSXSites S content, ¬ ∃ rest, e.2.1 = '<' :: ('/' :: rest)) := by
  have hhead : ∀ (r r' : Str), S ++ r = '/' :: r' → False := by
    intro r r' hr
    cases S with
    | nil => exact absurd rfl hSne
    | cons c0 cs0 =>
      rw [List.cons_append] at hr
      have hc : c0 = '/' := ((List.cons.injEq _ _ _ _).mp hr).1
      exact absurd (hS c0 (List.mem_cons_self c0 cs0)) (hc ▸ by decide)
  refine ⟨?_, ?_, ?_, ?_⟩
  · intro e he
    obtain ⟨n, hfire⟩ := mem_scanAll he
    exact plainJSXAt_inv hS.not_dot hfire
  · intro e he
    obtain ⟨n, hfire⟩ := mem_scanAll he
    obtain ⟨rest, hshape, _⟩ := plainJSXAt_inv hS.not_dot hfire
    rintro ⟨rest', hclose⟩
    rw [hshape] at hclose
    exact hhead rest rest' ((List.cons.injEq _ _ _ _).mp hclose).2
  · intro e he
    obtain ⟨n, hfire⟩ := mem_scanAll he
    exact nsJSXAt_inv hS.not_dot hfire
  · intro e he
    obtain ⟨n, hfire⟩ := mem_scanAll he
    obtain ⟨rest, hshape, _, _, _⟩ := nsJSXAt_inv hS.not_dot hfire
    rintro ⟨rest', hclose⟩
    rw [hshape] at hclose
    exact hhead _ rest' ((List.cons.injEq _ _ _ _).mp hclose).2

/-- C5 witness: the characterization applied at the single site the
markup scan yields on a text that also contains a closing tag
`</Button>`, a longer identifier `<Buttons z>`, and the namespace
closing form `</NS.Card>` — none of which produce a site. -/
theorem claim_C5_witness :
    ∃ rest, str "<Button >y</Button><Buttons z> </NS.Card>" =
      '<' :: (str "Button" ++ rest) ∧ isWordDash (rest.headD ' ') = false :=
  (claim_C5 (str "Button") (str "x<Button >y</Button><Buttons z> </NS.Card>")
    (by decide) (by decide)).1
    (some 'x', str "<Button >y</Button><Buttons z> </NS.Card>", ()) (by decide)

/-! ## Claim C1: which side of a rename becomes the symbol key (amended) -/

/-- C1 (amended): a renamed binding — `orig as alias` in a named import
list, `orig: alias` in a destructured require — contributes the
*original* exported name as the symbol-table key, mapped to a set
containing the file; the local alias is what is discarded from the
symbol key (`.split(" as ")[0]` and `.split(":")[0]` keep the left-hand
side). -/
theorem claim_C1 (orig al f : Str) (t : Table)
    (hwo : WordName orig) (hwa : WordName al) (hno : orig ≠ []) (hna : al ≠ [])
    (hne : orig ≠ al) :
    namedKey (orig ++ str " as " ++ al) = orig ∧
    requireKey (orig ++ ':' :: al) = orig ∧
    f ∈ filesAt (processNamed f [orig ++ str " as " ++ al] t) orig ∧
    (lookupT t al = none →
      lookupT (processNamed f [orig ++ str " as " ++ al] t) al = none) ∧
    f ∈ filesAt (processRequire f [orig ++ ':' :: al] t) orig ∧
    (lookupT t al = none →
      lookupT (processRequire f [orig ++ ':' :: al] t) al = none) := by
  have hkey1 := namedKey_rename hwo hwa hno hna
  have hkey2 := requireKey_colon hwo hwa hno hna
  have hmid : ∀ c ∈ str " as ", c ≠ ',' := by decide
  have hnc1 : ∀ c ∈ orig ++ str " as " ++ al, c ≠ ',' := by
    intro c hc
    rcases List.mem_append.mp hc with h1 | h2
    · rcases List.mem_append.mp h1 with ha | hb
      · exact hwo.no_comma c ha
      · exact hmid c hb
    · exact hwa.no_comma c h2
  have hnc2 : ∀ c ∈ orig ++ ':' :: al, c ≠ ',' := by
    intro c hc
    rcases List.mem_append.mp hc with h1 | h2
    · exact hwo.no_comma c h1
    · rcases List.mem_cons.mp h2 with rfl | h3
      · decide
      · exact hwa.no_comma c h3
  have hpn : processNamed f [orig ++ str " as " ++ al] t = addImport t orig f := by
    simp only [processNamed, List.foldl_cons, List.foldl_nil]
    rw [splitOnChar_no_sep hnc1]
    simp only [List.map_cons, List.map_nil, List.foldl_cons, List.foldl_nil]
    rw [hkey1]
  have hpr : processRequire f [orig ++ ':' :: al] t = addImport t orig f := by
    simp only [processRequire, List.foldl_cons, List.foldl_nil]
    rw [splitOnChar_no_sep hnc2]
    simp only [List.map_cons, List.map_nil, List.foldl_cons, List.foldl_nil]
    rw [hkey2]
  have hself : f ∈ filesAt (addImport t orig f) orig := by
    obtain ⟨fs, hfs, hf⟩ := mem_filesAt_addImport_self (t := t) (k := orig) (f := f)
    exact mem_filesAt_iff.mpr ⟨fs, hfs, hf⟩
  have hother : lookupT t al = none → lookupT (addImport t orig f) al = none := by
    intro hnone
    rw [lookupT_addImport_other (Ne.symm hne)]
    exact hnone
  refine ⟨hkey1, hkey2, ?_, ?_, ?_, ?_⟩
  · rw [hpn]; exact hself
  · intro h0; rw [hpn]; exact hother h0
  · rw [hpr]; exact hself
  · intro h0; rw [hpr]; exact hother h0

/-- C1 witness: the amended behaviour at the concrete rename `B as C`
(and `B:C`), starting from the empty symbol table. -/
theorem claim_C1_witness :
    namedKey (str "B" ++ str " as " ++ str "C") = str "B" ∧
    requireKey (str "B" ++ ':' :: str "C") = str "B" ∧
    str "f1" ∈ filesAt (processNamed (str "f1")
      [str "B" ++ str " as " ++ str "C"] []) (str "B") ∧
    (lookupT ([] : Table) (str "C") = none →
      lookupT (processNamed (str "f1") [str "B" ++ str " as " ++ str "C"] [])
        (str "C") = none) ∧
    str "f1" ∈ filesAt (processRequire (str "f1")
      [str "B" ++ ':' :: str "C"] []) (str "B") ∧
    (lookupT ([] : Table) (str "C") = none →
      lookupT (processRequire (str "f1") [str "B" ++ ':' :: str "C"] [])
        (str "C") = none) :=
  claim_C1 (str "B") (str "C") (str "f1") []
    (by decide) (by decide) (by decide) (by decide) (by decide)

/-- C1 counterexample: for a file whose text is
`import { B as C } from "your-package-name"` the symbol table ends up
with key `B` (the original) and no key `C` (the alias) — and likewise
for `const { B: C } = require("your-package-name")` — refuting the
claim that the local bound name `C` is registered and `B` discarded. -/
theorem claim_C1_counterexample :
    lookupT (findImports (str "import \x7b B as C \x7d from \"your-package-name\"")
      (str "f1") []) (str "C") = none ∧
    str "f1" ∈ filesAt (findImports
      (str "import \x7b B as C \x7d from \"your-package-name\"") (str "f1") [])
      (str "B") ∧
    lookupT (findImports (str "const \x7b B: C \x7d = require(\"your-package-name\")")
      (str "f1") []) (str "C") = none ∧
    str "f1" ∈ filesAt (findImports
      (str "const \x7b B: C \x7d = require(\"your-package-name\")") (str "f1") [])
      (str "B") :=
  ⟨by decide, by decide, by decide, by decide⟩

/-! ## Claim C7: the "no usage" block (amended) -/

theorem filesAt_nil_iff {t : Table} (hv : ∀ e ∈ t, e.2 ≠ []) {c : Str} :
    filesAt t c = [] ↔ c ∉ t.map (fun e => e.1) := by
  induction t with
  | nil => simp [filesAt, lookupT]
  | cons e t ih =>
    by_cases he : e.1 = c
    · simp only [filesAt, lookupT, if_pos he, Option.getD_some, List.map_cons,
        List.mem_cons]
      constructor
      · intro hnil
        exact absurd hnil (hv e (List.mem_cons_self e t))
      · intro hnot
        exact absurd (Or.inl he.symm) hnot
    · simp only [filesAt, lookupT, if_neg he, List.map_cons, List.mem_cons]
      rw [show (lookupT t c).getD [] = filesAt t c from rfl,
        ih (fun d hd => hv d (List.mem_cons_of_mem e hd))]
      constructor
      · intro hnot
        rintro (rfl | hmem)
        · exact he rfl
        · exact hnot hmem
      · intro hnot hmem
        exact hnot (Or.inr hmem)

/-- C7 (amended): in `script-func-comp.js` (the split variant) the
"COMPONENTS WITH NO USAGE FOUND" list contains exactly the symbol-table
keys with zero recorded occurrences in both instance tables and without
the namespace `*` tag.  (The merged variant `src/unnamed/part_000` does
*not* exclude namespace-tagged keys — see the counterexample.) -/
theorem claim_C7 (st : St)
    (hJ : ∀ e ∈ st.instJSX, e.2 ≠ []) (hF : ∀ e ∈ st.instFunc, e.2 ≠ []) :
    ∀ c, c ∈ unusedComponents st ↔
      c ∈ keysOf st.usage ∧ filesAt st.instJSX c = [] ∧
      filesAt st.instFunc c = [] ∧ c.head? ≠ some '*' := by
  intro c
  unfold unusedComponents
  rw [List.mem_filter]
  have hJiff := filesAt_nil_iff (t := st.instJSX) hJ (c := c)
  have hFiff := filesAt_nil_iff (t := st.instFunc) hF (c := c)
  have hused : c ∈ usedComponents st ↔
      c ∈ st.instJSX.map (fun e => e.1) ∨ c ∈ st.instFunc.map (fun e => e.1) := by
    unfold usedComponents
    exact List.mem_append
  constructor
  · rintro ⟨hmem, hp⟩
    simp only [Bool.and_eq_true, Bool.not_eq_true', decide_eq_true_eq] at hp
    obtain ⟨hcont, hstar⟩ := hp
    have hnot : c ∉ usedComponents st := by
      intro habs
      rw [← List.elem_iff] at habs
      rw [show (usedComponents st).contains c = List.elem c (usedComponents st) from rfl,
        habs] at hcont
      cases hcont
    rw [hused] at hnot
    push_neg at hnot
    exact ⟨hmem, hJiff.mpr hnot.1, hFiff.mpr hnot.2, hstar⟩
  · rintro ⟨hmem, hj, hf, hstar⟩
    refine ⟨hmem, ?_⟩
    simp only [Bool.and_eq_true, Bool.not_eq_true', decide_eq_true_eq]
    refine ⟨?_, hstar⟩
    rw [show (usedComponents st).contains c = List.elem c (usedComponents st) from rfl,
      ← Bool.not_eq_true, List.elem_iff, hused]
    push_neg
    exact ⟨hJiff.mp hj, hFiff.mp hf⟩

/-- C7 witness: with `{Button, Card}` imported and only `Button` used,
the unused list is exactly `[Card]`; membership of `Card` follows from
the characterization. -/
theorem claim_C7_witness :
    str "Card" ∈ unusedComponents (runAnalysis [(str "f1",
      str "import \x7b Button, Card \x7d from \"your-package-name\"\n<Button/>")]) ∧
    unusedComponents (runAnalysis [(str "f1",
      str "import \x7b Button, Card \x7d from \"your-package-name\"\n<Button/>")]) =
      [str "Card"] := by
  constructor
  · exact (claim_C7 _ (by decide) (by decide) (str "Card")).mpr
      ⟨by decide, by decide, by decide, by decide⟩
  · decide

/-- C7 counterexample: in `src/unnamed/part_000` the "no instances"
filter is `!componentInstances[c]` with no `*` exclusion, so a namespace
key with no recorded member usage — here `*NS` — appears in the block. -/
theorem claim_C7_counterexample :
    str "*NS" ∈ unusedComponentsMerged (runAnalysisMerged
      [(str "f1", str "import * as NS from \"your-package-name\"")]) ∧
    (str "*NS").head? = some '*' :=
  ⟨by decide, by decide⟩

/-! ## Per-key effect of `findComponentUsages`

For a word-like plain key `S` (no `.`, no leading `*`), the usage scan of
one file touches the instance-table rows of `S` only in the loop
iteration for `S` itself: namespace iterations write only dotted keys,
and other plain iterations write only their own key. -/

theorem ns_key_ne {al m S : Str} (hdot : '.' ∉ S) : al ++ '.' :: m ≠ S := by
  intro h
  apply hdot
  rw [← h]
  exact List.mem_append.mpr (Or.inr (List.mem_cons_self _ _))

theorem nsJSXLoop_preserves {f al S : Str} (hdot : '.' ∉ S) (ms : List Str) (st : St) :
    filesAt (nsJSXLoop f al ms st).1.instJSX S = filesAt st.instJSX S ∧
    (nsJSXLoop f al ms st).1.instFunc = st.instFunc ∧
    (nsJSXLoop f al ms st).1.usage = st.usage := by
  unfold nsJSXLoop
  refine foldl_preserve
    (P := fun acc : St × List Str => filesAt acc.1.instJSX S = filesAt st.instJSX S ∧
      acc.1.instFunc = st.instFunc ∧ acc.1.usage = st.usage)
    ?_ ms (st, []) ⟨rfl, rfl, rfl⟩
  rintro ⟨st', set'⟩ m ⟨h1, h2, h3⟩
  refine ⟨?_, h2, h3⟩
  simp only
  rw [filesAt_pushInst_other (Ne.symm (ns_key_ne hdot))]
  exact h1

theorem nsFuncLoop_preserves {f al S : Str} (hdot : '.' ∉ S) (ms nsSet : List Str)
    (st : St) :
    filesAt (nsFuncLoop f al ms nsSet st).instFunc S = filesAt st.instFunc S ∧
    (nsFuncLoop f al ms nsSet st).instJSX = st.instJSX ∧
    (nsFuncLoop f al ms nsSet st).usage = st.usage := by
  unfold nsFuncLoop
  refine foldl_preserve
    (P := fun st' : St => filesAt st'.instFunc S = filesAt st.instFunc S ∧
      st'.instJSX = st.instJSX ∧ st'.usage = st.usage)
    ?_ ms st ⟨rfl, rfl, rfl⟩
  rintro st' m ⟨h1, h2, h3⟩
  by_cases hmem : nsSet.contains (al ++ '.' :: m) = true
  · rw [if_pos hmem]
    exact ⟨h1, h2, h3⟩
  · rw [if_neg hmem]
    refine ⟨?_, h2, h3⟩
    rw [show ({ st' with instFunc := pushInst st'.instFunc (al ++ '.' :: m) f } : St).instFunc =
      pushInst st'.instFunc (al ++ '.' :: m) f from rfl]
    rw [filesAt_pushInst_other (Ne.symm (ns_key_ne hdot))]
    exact h1

theorem starBranch_preserves {c f ns S : Str} (hdot : '.' ∉ S) (st : St) :
    filesAt (starBranch c f ns st).instJSX S = filesAt st.instJSX S ∧
    filesAt (starBranch c f ns st).instFunc S = filesAt st.instFunc S ∧
    (starBranch c f ns st).usage = st.usage := by
  unfold starBranch
  rcases hprod : nsJSXLoop f ns ((nsJSXSites ns c).map (fun e => e.2.2)) st with ⟨st1, nsSet⟩
  obtain ⟨hJ1, hF1, hU1⟩ := @nsJSXLoop_preserves f ns S hdot
    ((nsJSXSites ns c).map (fun e => e.2.2)) st
  rw [hprod] at hJ1 hF1 hU1
  obtain ⟨hF2, hJ2, hU2⟩ := @nsFuncLoop_preserves f ns S hdot
    ((nsFuncSites ns c).map (fun e => e.2.2)) nsSet st1
  simp only [hprod]
  refine ⟨?_, ?_, ?_⟩
  · rw [hJ2]
    exact hJ1
  · rw [hF2, hF1]
  · rw [hU2]
    exact hU1

theorem plainTail_other {c f S T : Str} (hne : T ≠ S) (st1 : St) :
    filesAt (plainTail c f T st1).instJSX S = filesAt st1.instJSX S ∧
    filesAt (plainTail c f T st1).instFunc S = filesAt st1.instFunc S ∧
    (plainTail c f T st1).usage = st1.usage := by
  unfold plainTail
  by_cases hsup : (filesAt st1.instJSX T).contains f = true
  · rw [if_pos hsup]
    exact ⟨rfl, rfl, rfl⟩
  · rw [if_neg hsup]
    by_cases hfn : (funcSites T c).length > 0
    · rw [if_pos hfn]
      exact ⟨rfl, filesAt_pushInstN_other (Ne.symm hne) _, rfl⟩
    · rw [if_neg hfn]
      exact ⟨rfl, rfl, rfl⟩

theorem plainBranch_other {c f S T : Str} (hne : T ≠ S) (st : St) :
    filesAt (plainBranch c f T st).instJSX S = filesAt st.instJSX S ∧
    filesAt (plainBranch c f T st).instFunc S = filesAt st.instFunc S ∧
    (plainBranch c f T st).usage = st.usage := by
  unfold plainBranch
  by_cases hjn : (jsxSites T c).length > 0
  · rw [if_pos hjn]
    obtain ⟨h1, h2, h3⟩ := plainTail_other (c := c) (f := f) hne
      { st with instJSX := pushInstN st.instJSX T f (jsxSites T c).length }
    refine ⟨?_, ?_, ?_⟩
    · rw [h1]
      exact filesAt_pushInstN_other (Ne.symm hne) _
    · exact h2
    · exact h3
  · rw [if_neg hjn]
    exact plainTail_other hne st

theorem contains_eq_true_iff {l : List Str} {x : Str} : l.contains x = true ↔ x ∈ l := by
  rw [show l.contains x = List.elem x l from rfl, List.elem_iff]

theorem plainBranch_self {c f S : Str} (st : St) :
    filesAt (plainBranch c f S st).instJSX S =
      filesAt st.instJSX S ++ List.replicate (jsxSites S c).length f ∧
    filesAt (plainBranch c f S st).instFunc S =
      filesAt st.instFunc S ++
        (if (jsxSites S c).length = 0 ∧ f ∉ filesAt st.instJSX S then
          List.replicate (funcSites S c).length f
        else []) ∧
    (plainBranch c f S st).usage = st.usage := by
  unfold plainBranch plainTail
  by_cases hjn : (jsxSites S c).length > 0
  · rw [if_pos hjn]
    have hJ1 : filesAt ({ st with
        instJSX := pushInstN st.instJSX S f (jsxSites S c).length } : St).instJSX S =
        filesAt st.instJSX S ++ List.replicate (jsxSites S c).length f :=
      filesAt_pushInstN_self _
    have hsup : (filesAt ({ st with
        instJSX := pushInstN st.instJSX S f (jsxSites S c).length } : St).instJSX S).contains
        f = true := by
      rw [contains_eq_true_iff, hJ1]
      exact List.mem_append.mpr (Or.inr (List.mem_replicate.mpr ⟨by omega, rfl⟩))
    rw [if_pos hsup]
    refine ⟨hJ1, ?_, rfl⟩
    rw [if_neg (fun hand : _ ∧ _ => by omega)]
    simp
  · rw [if_neg hjn]
    have hjn0 : (jsxSites S c).length = 0 := by omega
    rw [hjn0, List.replicate_zero, List.append_nil]
    by_cases hf : f ∈ filesAt st.instJSX S
    · have hsup : (filesAt st.instJSX S).contains f = true := contains_eq_true_iff.mpr hf
      rw [if_pos hsup]
      refine ⟨rfl, ?_, rfl⟩
      rw [if_neg (fun hand => hand.2 hf)]
      simp
    · have hsup : ¬ (filesAt st.instJSX S).contains f = true := fun hc =>
        hf (contains_eq_true_iff.mp hc)
      rw [if_neg hsup]
      by_cases hfn : (funcSites S c).length > 0
      · rw [if_pos hfn, if_pos ⟨rfl, hf⟩]
        exact ⟨rfl, filesAt_pushInstN_self _, rfl⟩
      · rw [if_neg hfn, if_pos ⟨rfl, hf⟩]
        have hfn0 : (funcSites S c).length = 0 := by omega
        rw [hfn0, List.replicate_zero, List.append_nil]
        exact ⟨rfl, rfl, rfl⟩

theorem perComponent_eq_plain {c f : Str} {st : St} {comp : Str}
    (h : comp.head? ≠ some '*') :
    perComponent c f st comp = plainBranch c f comp st := by
  cases comp with
  | nil => rfl
  | cons c0 cs =>
    unfold perComponent
    split
    case _ ns heq =>
      rw [heq] at h
      exact absurd rfl h
    case _ => rfl

theorem WordName.head_not_star {S : Str} (hS : WordName S) : S.head? ≠ some '*' := by
  cases S with
  | nil => simp
  | cons c0 cs =>
    simp only [List.head?_cons, ne_eq, Option.some.injEq]
    intro h
    exact absurd (hS c0 (List.mem_cons_self c0 cs)) (h ▸ by decide)

theorem perComponent_other {c f S T : Str} (hdot : '.' ∉ S) (hne : T ≠ S) (st : St) :
    filesAt (perComponent c f st T).instJSX S = filesAt st.instJSX S ∧
    filesAt (perComponent c f st T).instFunc S = filesAt st.instFunc S ∧
    (perComponent c f st T).usage = st.usage := by
  cases T with
  | nil => exact plainBranch_other hne st
  | cons c0 cs =>
    by_cases hc0 : c0 = '*'
    · subst hc0
      exact starBranch_preserves hdot st
    · rw [perComponent_eq_plain (by simp [hc0])]
      exact plainBranch_other hne st

theorem perComponent_self {c f S : Str} (hS : WordName S) (st : St) :
    filesAt (perComponent c f st S).instJSX S =
      filesAt st.instJSX S ++ List.replicate (jsxSites S c).length f ∧
    filesAt (perComponent c f st S).instFunc S =
      filesAt st.instFunc S ++
        (if (jsxSites S c).length = 0 ∧ f ∉ filesAt st.instJSX S then
          List.replicate (funcSites S c).length f
        else []) ∧
    (perComponent c f st S).usage = st.usage := by
  rw [perComponent_eq_plain hS.head_not_star]
  exact plainBranch_self st

/-! ## Symbol-table keys accumulated by `findImports` -/

theorem mem_keysOf_addFold {f S : Str} :
    ∀ (ks : List Str) (t : Table),
      S ∈ keysOf (ks.foldl (fun t k => addImport t k f) t) ↔ S ∈ keysOf t ∨ S ∈ ks := by
  intro ks
  induction ks with
  | nil => intro t; simp
  | cons k ks ih =>
    intro t
    rw [List.foldl_cons, ih (addImport t k f)]
    rw [show (S ∈ keysOf (addImport t k f)) = (S ∈ keysOf (addImport t k f)) from rfl]
    constructor
    · rintro (h | h)
      · rcases mem_keysOf_addImport.mp h with h' | rfl
        · exact Or.inl h'
        · exact Or.inr (List.mem_cons_self _ _)
      · exact Or.inr (List.mem_cons_of_mem _ h)
    · rintro (h | h)
      · exact Or.inl (mem_keysOf_addImport.mpr (Or.inl h))
      · rcases List.mem_cons.mp h with rfl | h'
        · exact Or.inl (mem_keysOf_addImport.mpr (Or.inr rfl))
        · exact Or.inr h'

theorem nodup_keysOf_addFold {f : Str} :
    ∀ (ks : List Str) (t : Table),
      (keysOf t).Nodup → (keysOf (ks.foldl (fun t k => addImport t k f) t)).Nodup :=
  fun ks t h =>
    foldl_preserve (P := fun t => (keysOf t).Nodup)
      (fun _ _ => nodup_keysOf_addImport) ks t h

theorem mem_keysOf_processNamed {f S : Str} {inners : List Str} :
    ∀ (t : Table), S ∈ keysOf (processNamed f inners t) ↔
      S ∈ keysOf t ∨ ∃ inner ∈ inners, S ∈ (splitOnChar ',' inner).map namedKey := by
  induction inners with
  | nil => intro t; simp [processNamed]
  | cons inner inners ih =>
    intro t
    rw [show processNamed f (inner :: inners) t = processNamed f inners
      (((splitOnChar ',' inner).map namedKey).foldl (fun t k => addImport t k f) t) from rfl]
    rw [ih, mem_keysOf_addFold]
    constructor
    · rintro ((h | h) | ⟨i, hi, hk⟩)
      · exact Or.inl h
      · exact Or.inr ⟨inner, List.mem_cons_self _ _, h⟩
      · exact Or.inr ⟨i, List.mem_cons_of_mem _ hi, hk⟩
    · rintro (h | ⟨i, hi, hk⟩)
      · exact Or.inl (Or.inl h)
      · rcases List.mem_cons.mp hi with rfl | hi'
        · exact Or.inl (Or.inr hk)
        · exact Or.inr ⟨i, hi', hk⟩

theorem mem_keysOf_processRequire {f S : Str} {inners : List Str} :
    ∀ (t : Table), S ∈ keysOf (processRequire f inners t) ↔
      S ∈ keysOf t ∨ ∃ inner ∈ inners, S ∈ (splitOnChar ',' inner).map requireKey := by
  induction inners with
  | nil => intro t; simp [processRequire]
  | cons inner inners ih =>
    intro t
    rw [show processRequire f (inner :: inners) t = processRequire f inners
      (((splitOnChar ',' inner).map requireKey).foldl (fun t k => addImport t k f) t) from rfl]
    rw [ih, mem_keysOf_addFold]
    constructor
    · rintro ((h | h) | ⟨i, hi, hk⟩)
      · exact Or.inl h
      · exact Or.inr ⟨inner, List.mem_cons_self _ _, h⟩
      · exact Or.inr ⟨i, List.mem_cons_of_mem _ hi, hk⟩
    · rintro (h | ⟨i, hi, hk⟩)
      · exact Or.inl (Or.inl h)
      · rcases List.mem_cons.mp hi with rfl | hi'
        · exact Or.inl (Or.inr hk)
        · exact Or.inr ⟨i, hi', hk⟩

theorem mem_keysOf_processDefault {f S : Str} {caps : List Str} :
    ∀ (t : Table), S ∈ keysOf (processDefault f caps t) ↔
      S ∈ keysOf t ∨ ∃ cap ∈ caps, trimStr cap ≠ pkgS ∧ S = trimStr cap := by
  induction caps with
  | nil => intro t; simp [processDefault]
  | cons cap caps ih =>
    intro t
    rw [show processDefault f (cap :: caps) t = processDefault f caps
      (if trimStr cap = pkgS then t else addImport t (trimStr cap) f) from rfl]
    rw [ih]
    by_cases hp : trimStr cap = pkgS
    · rw [if_pos hp]
      constructor
      · rintro (h | ⟨i, hi, hk⟩)
        · exact Or.inl h
        · exact Or.inr ⟨i, List.mem_cons_of_mem _ hi, hk⟩
      · rintro (h | ⟨i, hi, hne, hk⟩)
        · exact Or.inl h
        · rcases List.mem_cons.mp hi with rfl | hi'
          · exact absurd hp hne
          · exact Or.inr ⟨i, hi', hne, hk⟩
    · rw [if_neg hp]
      constructor
      · rintro (h | ⟨i, hi, hk⟩)
        · rcases mem_keysOf_addImport.mp h with h' | rfl
          · exact Or.inl h'
          · exact Or.inr ⟨cap, List.mem_cons_self _ _, hp, rfl⟩
        · exact Or.inr ⟨i, List.mem_cons_of_mem _ hi, hk⟩
      · rintro (h | ⟨i, hi, hne, hk⟩)
        · exact Or.inl (mem_keysOf_addImport.mpr (Or.inl h))
        · rcases List.mem_cons.mp hi with rfl | hi'
          · exact Or.inl (mem_keysOf_addImport.mpr (Or.inr hk))
          · exact Or.inr ⟨i, hi', hne, hk⟩

theorem mem_keysOf_processNamespace {f S : Str} {caps : List Str} :
    ∀ (t : Table), S ∈ keysOf (processNamespace f caps t) ↔
      S ∈ keysOf t ∨ ∃ cap ∈ caps, S = '*' :: trimStr cap := by
  induction caps with
  | nil => intro t; simp [processNamespace]
  | cons cap caps ih =>
    intro t
    rw [show processNamespace f (cap :: caps) t = processNamespace f caps
      (addImport t ('*' :: trimStr cap) f) from rfl]
    rw [ih]
    constructor
    · rintro (h | ⟨i, hi, hk⟩)
      · rcases mem_keysOf_addImport.mp h with h' | rfl
        · exact Or.inl h'
        · exact Or.inr ⟨cap, List.mem_cons_self _ _, rfl⟩
      · exact Or.inr ⟨i, List.mem_cons_of_mem _ hi, hk⟩
    · rintro (h | ⟨i, hi, hk⟩)
      · exact Or.inl (mem_keysOf_addImport.mpr (Or.inl h))
      · rcases List.mem_cons.mp hi with rfl | hi'
        · exact Or.inl (mem_keysOf_addImport.mpr (Or.inr hk))
        · exact Or.inr ⟨i, hi', hk⟩

theorem mem_keysOf_processRequireDefault {f S : Str} {caps : List Str} :
    ∀ (t : Table), S ∈ keysOf (processRequireDefault f caps t) ↔
      S ∈ keysOf t ∨ ∃ cap ∈ caps, S = trimStr cap := by
  induction caps with
  | nil => intro t; simp [processRequireDefault]
  | cons cap caps ih =>
    intro t
    rw [show processRequireDefault f (cap :: caps) t = processRequireDefault f caps
      (addImport t (trimStr cap) f) from rfl]
    rw [ih]
    constructor
    · rintro (h | ⟨i, hi, hk⟩)
      · rcases mem_keysOf_addImport.mp h with h' | rfl
        · exact Or.inl h'
        · exact Or.inr ⟨cap, List.mem_cons_self _ _, rfl⟩
      · exact Or.inr ⟨i, List.mem_cons_of_mem _ hi, hk⟩
    · rintro (h | ⟨i, hi, hk⟩)
      · exact Or.inl (mem_keysOf_addImport.mpr (Or.inl h))
      · rcases List.mem_cons.mp hi with rfl | hi'
        · exact Or.inl (mem_keysOf_addImport.mpr (Or.inr hk))
        · exact Or.inr ⟨i, hi', hk⟩

theorem mem_keysOf_findImports {c f S : Str} {t : Table} :
    S ∈ keysOf (findImports c f t) ↔ S ∈ keysOf t ∨ S ∈ importKeys c := by
  have hgen : ∀ (f' : Str) (t' : Table), S ∈ keysOf (findImports c f' t') ↔
      S ∈ keysOf t' ∨
      ((∃ inner ∈ namedMatches c, S ∈ (splitOnChar ',' inner).map namedKey) ∨
       (∃ cap ∈ defaultMatches c, trimStr cap ≠ pkgS ∧ S = trimStr cap) ∨
       (∃ cap ∈ namespaceMatches c, S = '*' :: trimStr cap) ∨
       (∃ inner ∈ requireMatches c, S ∈ (splitOnChar ',' inner).map requireKey) ∨
       (∃ cap ∈ requireDefaultMatches c, S = trimStr cap)) := by
    intro f' t'
    unfold findImports
    rw [mem_keysOf_processRequireDefault, mem_keysOf_processRequire,
      mem_keysOf_processNamespace, mem_keysOf_processDefault, mem_keysOf_processNamed]
    simp only [or_assoc]
  rw [hgen f t]
  have himp : S ∈ importKeys c ↔
      ((∃ inner ∈ namedMatches c, S ∈ (splitOnChar ',' inner).map namedKey) ∨
       (∃ cap ∈ defaultMatches c, trimStr cap ≠ pkgS ∧ S = trimStr cap) ∨
       (∃ cap ∈ namespaceMatches c, S = '*' :: trimStr cap) ∨
       (∃ inner ∈ requireMatches c, S ∈ (splitOnChar ',' inner).map requireKey) ∨
       (∃ cap ∈ requireDefaultMatches c, S = trimStr cap)) := by
    unfold importKeys
    rw [hgen [] []]
    simp [keysOf]
  rw [himp]

theorem nodup_keysOf_findImports {c f : Str} {t : Table}
    (h : (keysOf t).Nodup) : (keysOf (findImports c f t)).Nodup := by
  unfold findImports
  refine foldl_preserve (P := fun t => (keysOf t).Nodup)
    (fun t cap h' => nodup_keysOf_addImport h') _ _ ?_
  refine foldl_preserve (P := fun t => (keysOf t).Nodup)
    (fun t inner h' => nodup_keysOf_addFold _ _ h') _ _ ?_
  refine foldl_preserve (P := fun t => (keysOf t).Nodup)
    (fun t cap h' => nodup_keysOf_addImport h') _ _ ?_
  refine foldl_preserve (P := fun t => (keysOf t).Nodup)
    (fun t cap h' => by
      by_cases hp : trimStr cap = pkgS
      · rwa [if_pos hp]
      · rw [if_neg hp]; exact nodup_keysOf_addImport h') _ _ ?_
  refine foldl_preserve (P := fun t => (keysOf t).Nodup)
    (fun t inner h' => nodup_keysOf_addFold _ _ h') _ _ h

/-! ## Per-key effect of a whole `findComponentUsages` pass -/

/-- Fold preservation where the step property may use membership in the
folded list. -/
theorem foldl_preserve_mem {P : γ → Prop} {step : γ → β → γ} :
    ∀ {l : List β}, (∀ g b, b ∈ l → P g → P (step g b)) →
      ∀ g, P g → P (l.foldl step g) := by
  intro l
  induction l with
  | nil => intro _ g hg; exact hg
  | cons b l ih =>
    intro h g hg
    exact ih (fun g' b' hb' => h g' b' (List.mem_cons_of_mem b hb'))
      (step g b) (h g b (List.mem_cons_self b l) hg)

theorem mem_nodup_split {l : List Str} {S : Str} (hmem : S ∈ l) (hnd : l.Nodup) :
    ∃ l1 l2, l = l1 ++ S :: l2 ∧ S ∉ l1 ∧ S ∉ l2 := by
  obtain ⟨l1, l2, rfl⟩ := List.append_of_mem hmem
  rw [List.nodup_append] at hnd
  obtain ⟨h1, h2, hdisj⟩ := hnd
  refine ⟨l1, l2, rfl, ?_, ?_⟩
  · intro hS1
    exact hdisj hS1 (List.mem_cons_self S l2)
  · exact (List.nodup_cons.mp h2).1

theorem plainBranch_usage {c f T : Str} (st : St) :
    (plainBranch c f T st).usage = st.usage := by
  unfold plainBranch plainTail
  by_cases hjn : (jsxSites T c).length > 0
  · rw [if_pos hjn]
    by_cases hsup : (filesAt ({ st with
        instJSX := pushInstN st.instJSX T f (jsxSites T c).length } : St).instJSX T).contains
        f = true
    · rw [if_pos hsup]
    · rw [if_neg hsup]
      by_cases hfn : (funcSites T c).length > 0
      · rw [if_pos hfn]
      · rw [if_neg hfn]
  · rw [if_neg hjn]
    by_cases hsup : (filesAt st.instJSX T).contains f = true
    · rw [if_pos hsup]
    · rw [if_neg hsup]
      by_cases hfn : (funcSites T c).length > 0
      · rw [if_pos hfn]
      · rw [if_neg hfn]

theorem perComponent_usage {c f T : Str} (st : St) :
    (perComponent c f st T).usage = st.usage := by
  cases T with
  | nil => exact plainBranch_usage st
  | cons c0 cs =>
    by_cases hc0 : c0 = '*'
    · subst hc0
      exact (starBranch_preserves (S := []) (by simp) st).2.2
    · rw [perComponent_eq_plain (by simp [hc0])]
      exact plainBranch_usage st

theorem usage_findComponentUsages {c f : Str} (st : St) :
    (findComponentUsages c f st).usage = st.usage := by
  unfold findComponentUsages
  exact foldl_preserve (P := fun st' : St => st'.usage = st.usage)
    (fun st' T h => (perComponent_usage st').trans h) _ st rfl

/-- The usage scan of one file changes the instance rows of a word-like
plain key `S` exactly as its own loop iteration does — and only when `S`
is a key of the snapshot key list. -/
theorem findComponentUsages_at {c f S : Str} (hS : WordName S)
    (st : St) (hnd : (keysOf st.usage).Nodup) :
    (S ∈ keysOf st.usage →
      filesAt (findComponentUsages c f st).instJSX S =
        filesAt st.instJSX S ++ List.replicate (jsxSites S c).length f ∧
      filesAt (findComponentUsages c f st).instFunc S =
        filesAt st.instFunc S ++
          (if (jsxSites S c).length = 0 ∧ f ∉ filesAt st.instJSX S then
            List.replicate (funcSites S c).length f
          else [])) ∧
    (S ∉ keysOf st.usage →
      filesAt (findComponentUsages c f st).instJSX S = filesAt st.instJSX S ∧
      filesAt (findComponentUsages c f st).instFunc S = filesAt st.instFunc S) := by
  have hdot : '.' ∉ S := hS.not_dot
  constructor
  · intro hmem
    obtain ⟨l1, l2, hsplit, hS1, hS2⟩ := mem_nodup_split hmem hnd
    unfold findComponentUsages
    rw [show (st.usage.map (fun e => e.1)) = keysOf st.usage from rfl, hsplit,
      List.foldl_append, List.foldl_cons]
    have hstage1 : filesAt (l1.foldl (perComponent c f) st).instJSX S =
        filesAt st.instJSX S ∧
        filesAt (l1.foldl (perComponent c f) st).instFunc S =
        filesAt st.instFunc S := by
      refine foldl_preserve_mem
        (P := fun st' : St => filesAt st'.instJSX S = filesAt st.instJSX S ∧
          filesAt st'.instFunc S = filesAt st.instFunc S) ?_ st ⟨rfl, rfl⟩
      intro st' T hT ⟨h1, h2⟩
      obtain ⟨g1, g2, _⟩ := perComponent_other hdot
        (fun hTS => hS1 (hTS ▸ hT)) st'
      exact ⟨g1.trans h1, g2.trans h2⟩
    obtain ⟨hA1, hA2⟩ := hstage1
    obtain ⟨hB1, hB2, _⟩ := perComponent_self (c := c) (f := f) hS
      (l1.foldl (perComponent c f) st)
    rw [hA1] at hB1
    rw [hA1, hA2] at hB2
    refine foldl_preserve_mem
      (P := fun st' : St =>
        filesAt st'.instJSX S =
          filesAt st.instJSX S ++ List.replicate (jsxSites S c).length f ∧
        filesAt st'.instFunc S =
          filesAt st.instFunc S ++
            (if (jsxSites S c).length = 0 ∧ f ∉ filesAt st.instJSX S then
              List.replicate (funcSites S c).length f
            else [])) ?_ _ ⟨hB1, hB2⟩
    intro st' T hT ⟨h1, h2⟩
    obtain ⟨g1, g2, _⟩ := perComponent_other hdot
      (fun hTS => hS2 (hTS ▸ hT)) st'
    exact ⟨g1.trans h1, g2.trans h2⟩
  · intro hnot
    unfold findComponentUsages
    refine foldl_preserve_mem
      (P := fun st' : St => filesAt st'.instJSX S = filesAt st.instJSX S ∧
        filesAt st'.instFunc S = filesAt st.instFunc S) ?_ st ⟨rfl, rfl⟩
    intro st' T hT ⟨h1, h2⟩
    obtain ⟨g1, g2, _⟩ := perComponent_other hdot
      (fun hTS => hnot (hTS ▸ hT)) st'
    exact ⟨g1.trans h1, g2.trans h2⟩

/-! ## Per-key effect of `processFile` and of the whole run -/

theorem processFile_usage {st : St} {x : Str × Str} :
    (processFile st x).usage = findImports x.2 x.1 st.usage := by
  obtain ⟨F, c⟩ := x
  unfold processFile
  by_cases hemp : (findImports c F st.usage).isEmpty = true
  · rw [if_pos hemp]
  · rw [if_neg hemp]
    exact usage_findComponentUsages _

theorem nodup_processFile {st : St} {x : Str × Str}
    (hnd : (keysOf st.usage).Nodup) : (keysOf (processFile st x).usage).Nodup := by
  rw [processFile_usage]
  exact nodup_keysOf_findImports hnd

theorem processFile_at {F c S : Str} (hS : WordName S) (st : St)
    (hnd : (keysOf st.usage).Nodup) :
    filesAt (processFile st (F, c)).instJSX S =
      filesAt st.instJSX S ++
        (if S ∈ keysOf (findImports c F st.usage) then
          List.replicate (jsxSites S c).length F
        else []) ∧
    filesAt (processFile st (F, c)).instFunc S =
      filesAt st.instFunc S ++
        (if S ∈ keysOf (findImports c F st.usage) ∧ (jsxSites S c).length = 0 ∧
            F ∉ filesAt st.instJSX S then
          List.replicate (funcSites S c).length F
        else []) := by
  unfold processFile
  by_cases hemp : (findImports c F st.usage).isEmpty = true
  · rw [if_pos hemp]
    have hkeys : keysOf (findImports c F st.usage) = [] := by
      rw [List.isEmpty_iff] at hemp
      rw [hemp]
      rfl
    have hnotmem : S ∉ keysOf (findImports c F st.usage) := by
      rw [hkeys]
      simp
    rw [if_neg hnotmem, if_neg (fun hand => hnotmem hand.1)]
    exact ⟨by simp, by simp⟩
  · rw [if_neg hemp]
    have hnd' : (keysOf ({ st with
        usage := findImports c F st.usage } : St).usage).Nodup :=
      nodup_keysOf_findImports hnd
    have hat := findComponentUsages_at (c := c) (f := F) hS _ hnd'
    by_cases hmem : S ∈ keysOf (findImports c F st.usage)
    · obtain ⟨h1, h2⟩ := hat.1 hmem
      refine ⟨?_, ?_⟩
      · rw [if_pos hmem]
        exact h1
      · by_cases hcond : (jsxSites S c).length = 0 ∧ F ∉ filesAt st.instJSX S
        · rw [if_pos ⟨hmem, hcond.1, hcond.2⟩]
          rw [if_pos hcond] at h2
          exact h2
        · rw [if_neg (fun hand => hcond ⟨hand.2.1, hand.2.2⟩)]
          rw [if_neg hcond] at h2
          rw [List.append_nil] at h2 ⊢
          exact h2
    · obtain ⟨h1, h2⟩ := hat.2 hmem
      rw [if_neg hmem, if_neg (fun hand => hmem hand.1)]
      rw [List.append_nil, List.append_nil]
      exact ⟨h1, h2⟩

theorem mem_append_ite_replicate {F p : Str} (hne : F ≠ p) {old : List Str}
    {cond : Prop} [Decidable cond] {n : Nat} :
    F ∈ old ++ (if cond then List.replicate n p else []) ↔ F ∈ old := by
  by_cases hc : cond
  · rw [if_pos hc, List.mem_append]
    constructor
    · rintro (h | h)
      · exact h
      · exact absurd (List.eq_of_mem_replicate h) hne
    · exact Or.inl
  · rw [if_neg hc, List.append_nil]

/-- Processing files whose paths differ from `F` never changes whether
`F` appears in the rows of `S`. -/
theorem fold_no_F {S F : Str} (hS : WordName S) :
    ∀ (l : List (Str × Str)) (st : St), (keysOf st.usage).Nodup →
      F ∉ l.map Prod.fst →
      ((F ∈ filesAt (l.foldl processFile st).instJSX S ↔ F ∈ filesAt st.instJSX S) ∧
       (F ∈ filesAt (l.foldl processFile st).instFunc S ↔ F ∈ filesAt st.instFunc S)) := by
  intro l
  induction l with
  | nil =>
    intro st _ _
    exact ⟨Iff.rfl, Iff.rfl⟩
  | cons x l ih =>
    intro st hnd hF
    obtain ⟨p, c⟩ := x
    have hFp : F ≠ p := by
      intro h
      exact hF (by rw [List.map_cons, h]; exact List.mem_cons_self p _)
    have hat := processFile_at (F := p) (c := c) hS st hnd
    have ihres := ih (processFile st (p, c)) (nodup_processFile hnd)
      (fun hmem => hF (List.mem_cons_of_mem _ hmem))
    rw [List.foldl_cons]
    refine ⟨?_, ?_⟩
    · rw [ihres.1, hat.1, mem_append_ite_replicate hFp]
    · rw [ihres.2, hat.2, mem_append_ite_replicate hFp]

theorem mem_keys_run {S : Str} :
    ∀ (l : List (Str × Str)) (st : St),
      S ∈ keysOf ((l.foldl processFile st).usage) ↔
        S ∈ keysOf st.usage ∨ ∃ x ∈ l, S ∈ importKeys x.2 := by
  intro l
  induction l with
  | nil => intro st; simp
  | cons x l ih =>
    intro st
    rw [List.foldl_cons, ih, processFile_usage, mem_keysOf_findImports]
    constructor
    · rintro ((h | h) | ⟨y, hy, hk⟩)
      · exact Or.inl h
      · exact Or.inr ⟨x, List.mem_cons_self _ _, h⟩
      · exact Or.inr ⟨y, List.mem_cons_of_mem _ hy, hk⟩
    · rintro (h | ⟨y, hy, hk⟩)
      · exact Or.inl (Or.inl h)
      · rcases List.mem_cons.mp hy with rfl | hy'
        · exact Or.inl (Or.inr hk)
        · exact Or.inr ⟨y, hy', hk⟩

/-- The central run lemma: for a word-like plain symbol `S` and the file
`(F, cF)` at a given position of the walk (no other file sharing the
path), `F` ends up in the JSX row of `S` iff `S` is a symbol-table key
by the end of `F`'s own processing and `F`'s text has a markup match,
and in the call row iff moreover there is no markup match but a call
match. -/
theorem run_at {S : Str} (hS : WordName S) :
    ∀ (pref : List (Str × Str)) (F cF : Str) (suff : List (Str × Str)) (st : St),
      (keysOf st.usage).Nodup →
      F ∉ filesAt st.instJSX S → F ∉ filesAt st.instFunc S →
      F ∉ pref.map Prod.fst → F ∉ suff.map Prod.fst →
      ((F ∈ filesAt ((pref ++ (F, cF) :: suff).foldl processFile st).instJSX S ↔
        (S ∈ keysOf ((pref ++ [(F, cF)]).foldl processFile st).usage ∧
          (jsxSites S cF).length ≠ 0)) ∧
       (F ∈ filesAt ((pref ++ (F, cF) :: suff).foldl processFile st).instFunc S ↔
        (S ∈ keysOf ((pref ++ [(F, cF)]).foldl processFile st).usage ∧
          (jsxSites S cF).length = 0 ∧ (funcSites S cF).length ≠ 0))) := by
  intro pref
  induction pref with
  | nil =>
    intro F cF suff st hnd hJ hFn _ hsuff
    simp only [List.nil_append, List.foldl_cons, List.foldl_nil]
    have hat := processFile_at (F := F) (c := cF) hS st hnd
    have hnd2 : (keysOf (processFile st (F, cF)).usage).Nodup := nodup_processFile hnd
    have hfold := fold_no_F (F := F) hS suff (processFile st (F, cF)) hnd2 hsuff
    have hkeys : S ∈ keysOf (processFile st (F, cF)).usage ↔
        S ∈ keysOf (findImports cF F st.usage) := by
      rw [processFile_usage]
    refine ⟨?_, ?_⟩
    · rw [hfold.1, hat.1, List.mem_append, hkeys]
      constructor
      · rintro (h | h)
        · exact absurd h hJ
        · by_cases hc : S ∈ keysOf (findImports cF F st.usage)
          · rw [if_pos hc] at h
            exact ⟨hc, fun h0 => by rw [h0] at h; simp at h⟩
          · rw [if_neg hc] at h
            simp at h
      · rintro ⟨hc, hn⟩
        refine Or.inr ?_
        rw [if_pos hc]
        exact List.mem_replicate.mpr ⟨hn, rfl⟩
    · rw [hfold.2, hat.2, List.mem_append, hkeys]
      constructor
      · rintro (h | h)
        · exact absurd h hFn
        · by_cases hc : S ∈ keysOf (findImports cF F st.usage) ∧
              (jsxSites S cF).length = 0 ∧ F ∉ filesAt st.instJSX S
          · rw [if_pos hc] at h
            exact ⟨hc.1, hc.2.1, fun h0 => by rw [h0] at h; simp at h⟩
          · rw [if_neg hc] at h
            simp at h
      · rintro ⟨hc, hz, hn⟩
        refine Or.inr ?_
        rw [if_pos ⟨hc, hz, hJ⟩]
        exact List.mem_replicate.mpr ⟨hn, rfl⟩
  | cons x pref ih =>
    intro F cF suff st hnd hJ hFn hpref hsuff
    obtain ⟨p, c⟩ := x
    have hFp : F ≠ p := by
      intro h
      exact hpref (by rw [List.map_cons, h]; exact List.mem_cons_self p _)
    have hat := processFile_at (F := p) (c := c) hS st hnd
    have hJ' : F ∉ filesAt (processFile st (p, c)).instJSX S := by
      rw [hat.1, mem_append_ite_replicate hFp]
      exact hJ
    have hFn' : F ∉ filesAt (processFile st (p, c)).instFunc S := by
      rw [hat.2, mem_append_ite_replicate hFp]
      exact hFn
    have := ih F cF suff (processFile st (p, c)) (nodup_processFile hnd) hJ' hFn'
      (fun hmem => hpref (List.mem_cons_of_mem _ hmem)) hsuff
    simpa only [List.cons_append, List.foldl_cons] using this

/-! ## Claims C2, C6 and C10 -/

theorem decomp_of_lt {files : List (Str × Str)} {k : Nat} (hk : k < files.length) :
    files = files.take k ++ files.get ⟨k, hk⟩ :: files.drop (k + 1) := by
  conv_lhs => rw [← List.take_append_drop k files]
  rw [List.drop_eq_getElem_cons hk]
  rfl

theorem nodup_sides {files : List (Str × Str)} {k : Nat} (hk : k < files.length)
    (hnd : (files.map Prod.fst).Nodup) :
    (files.get ⟨k, hk⟩).1 ∉ (files.take k).map Prod.fst ∧
    (files.get ⟨k, hk⟩).1 ∉ (files.drop (k + 1)).map Prod.fst := by
  have hdec := decomp_of_lt hk
  rw [hdec, List.map_append, List.map_cons, List.nodup_append] at hnd
  obtain ⟨_, h2, hdisj⟩ := hnd
  refine ⟨?_, (List.nodup_cons.mp h2).1⟩
  intro hmem
  exact hdisj hmem (List.mem_cons_self _ _)

/-- C10: walk-order dependence.  With distinct file paths, for a
word-like plain symbol `S` and the `k`-th file of the walk: some usage
of `S` is recorded for that file iff (a) one of the first `k+1` files
(itself included — its imports are extracted before its usage scan)
contributes `S` as an import key, and (b) the file's text has a markup
or a call match for `S`.  In particular, textual usage in files
processed strictly before the first importer of `S` is never recorded. -/
theorem claim_C10 (files : List (Str × Str)) (hnd : (files.map Prod.fst).Nodup)
    (S : Str) (hS : WordName S) (k : Nat) (hk : k < files.length) :
    ((files.get ⟨k, hk⟩).1 ∈ filesAt (runAnalysis files).instJSX S ∨
     (files.get ⟨k, hk⟩).1 ∈ filesAt (runAnalysis files).instFunc S) ↔
    ((∃ x ∈ files.take (k + 1), S ∈ importKeys x.2) ∧
     (jsxSites S (files.get ⟨k, hk⟩).2 ≠ [] ∨
      funcSites S (files.get ⟨k, hk⟩).2 ≠ [])) := by
  obtain ⟨F, cF, hget⟩ : ∃ F cF, files.get ⟨k, hk⟩ = (F, cF) :=
    ⟨_, _, Prod.mk.eta.symm⟩
  obtain ⟨hpref, hsuff⟩ := nodup_sides hk hnd
  rw [hget] at hpref hsuff ⊢
  show (F ∈ filesAt (runAnalysis files).instJSX S ∨
      F ∈ filesAt (runAnalysis files).instFunc S) ↔
    ((∃ x ∈ files.take (k + 1), S ∈ importKeys x.2) ∧
     (jsxSites S cF ≠ [] ∨ funcSites S cF ≠ []))
  have hrun := run_at hS (files.take k) F cF (files.drop (k + 1)) St.empty
    (by simp [St.empty, keysOf]) (by simp [St.empty, filesAt, lookupT])
    (by simp [St.empty, filesAt, lookupT]) hpref hsuff
  have hdec := decomp_of_lt hk
  rw [hget] at hdec
  have htake : files.take (k + 1) = files.take k ++ [(F, cF)] := by
    rw [List.take_succ, List.getElem?_eq_getElem hk, ← hget]
    rfl
  have hP : S ∈ keysOf (((files.take k ++ [(F, cF)]).foldl processFile St.empty)).usage ↔
      ∃ x ∈ files.take (k + 1), S ∈ importKeys x.2 := by
    rw [mem_keys_run, htake]
    simp [St.empty, keysOf]
  have hrw : runAnalysis files =
      ((files.take k ++ (F, cF) :: files.drop (k + 1)).foldl processFile St.empty) :=
    congrArg (fun l => List.foldl processFile St.empty l) hdec
  rw [hrw, hrun.1, hrun.2, hP]
  have hjne : (jsxSites S cF).length ≠ 0 ↔ jsxSites S cF ≠ [] :=
    not_congr List.length_eq_zero
  have hjeq : (jsxSites S cF).length = 0 ↔ jsxSites S cF = [] :=
    List.length_eq_zero
  have hfne : (funcSites S cF).length ≠ 0 ↔ funcSites S cF ≠ [] :=
    not_congr List.length_eq_zero
  rw [hjne, hjeq, hfne]
  constructor
  · rintro (⟨hA, hne⟩ | ⟨hA, _, hgne⟩)
    · exact ⟨hA, Or.inl hne⟩
    · exact ⟨hA, Or.inr hgne⟩
  · rintro ⟨hA, hne | hgne⟩
    · exact Or.inl ⟨hA, hne⟩
    · rcases Classical.em (jsxSites S cF = []) with hj | hj
      · exact Or.inr ⟨hA, hj, hgne⟩
      · exact Or.inl ⟨hA, hj⟩

/-- C10 witness: in a two-file walk where the second file imports
`Button`, a textual `Button(` occurrence in the first file is never
recorded (no file processed no later than it imports the symbol). -/
theorem claim_C10_witness :
    ¬ ((([(str "f1", str "Button(1)"),
        (str "f2", str "import \x7b Button \x7d from \"your-package-name\"")] :
        List (Str × Str)).get ⟨0, by decide⟩).1 ∈
      filesAt (runAnalysis [(str "f1", str "Button(1)"),
        (str "f2", str "import \x7b Button \x7d from \"your-package-name\"")]).instJSX
        (str "Button") ∨
      ((([(str "f1", str "Button(1)"),
        (str "f2", str "import \x7b Button \x7d from \"your-package-name\"")] :
        List (Str × Str)).get ⟨0, by decide⟩).1 ∈
      filesAt (runAnalysis [(str "f1", str "Button(1)"),
        (str "f2", str "import \x7b Button \x7d from \"your-package-name\"")]).instFunc
        (str "Button"))) := by
  intro h
  have := (claim_C10 [(str "f1", str "Button(1)"),
    (str "f2", str "import \x7b Button \x7d from \"your-package-name\"")]
    (by decide) (str "Button") (by decide) 0 (by decide)).mp h
  obtain ⟨⟨x, hx, hxk⟩, _⟩ := this
  have hx1 : x = (str "f1", str "Button(1)") := by simpa using hx
  rw [hx1] at hxk
  revert hxk
  decide

/-- C2 (amended): for every word-like plain symbol key `S` (in
particular, any dot-free name), markup-style and call-style usage are
never both recorded for the same file: the plain-branch suppression is
exact for such keys.  (For keys that textually collide with a namespace
member name `alias.member`, the two matching paths can doubly record —
see the counterexample.) -/
theorem claim_C2 (files : List (Str × Str)) (hnd : (files.map Prod.fst).Nodup)
    (S : Str) (hS : WordName S) (F : Str) :
    ¬ (F ∈ filesAt (runAnalysis files).instJSX S ∧
       F ∈ filesAt (runAnalysis files).instFunc S) := by
  rintro ⟨hJ, hFn⟩
  by_cases hmemF : F ∈ files.map Prod.fst
  · obtain ⟨x, hx, hfst⟩ := List.mem_map.mp hmemF
    obtain ⟨k, hk, hget0⟩ := List.getElem_of_mem hx
    obtain ⟨hpref, hsuff⟩ := nodup_sides hk hnd
    have hget : files.get ⟨k, hk⟩ = (F, x.2) := by
      rw [show files.get ⟨k, hk⟩ = files[k] from rfl, hget0, ← hfst]
    rw [hget] at hpref hsuff
    have hrun := run_at hS (files.take k) F x.2 (files.drop (k + 1)) St.empty
      (by simp [St.empty, keysOf]) (by simp [St.empty, filesAt, lookupT])
      (by simp [St.empty, filesAt, lookupT]) hpref hsuff
    have hdec := decomp_of_lt hk
    rw [hget] at hdec
    have hrw : runAnalysis files =
        ((files.take k ++ (F, x.2) :: files.drop (k + 1)).foldl processFile St.empty) :=
      congrArg (fun l => List.foldl processFile St.empty l) hdec
    rw [hrw] at hJ hFn
    have h1 := hrun.1.mp hJ
    have h2 := hrun.2.mp hFn
    exact h1.2 h2.2.1
  · have hfold := fold_no_F (F := F) hS files St.empty (by simp [St.empty, keysOf]) hmemF
    have : F ∈ filesAt St.empty.instJSX S := by
      rw [← hfold.1]
      exact hJ
    simp [St.empty, filesAt, lookupT] at this

/-- C2 witness: a file containing both `<Button>` markup and a later
`Button()` call records no call-style entry — the markup/call exclusion
at a concrete input, via the general theorem. -/
theorem claim_C2_witness :
    ¬ (str "f1" ∈ filesAt (runAnalysis [(str "f1",
        str "import \x7b Button \x7d from \"your-package-name\"\n<Button>x</Button>\nButton()")]).instJSX
        (str "Button") ∧
       str "f1" ∈ filesAt (runAnalysis [(str "f1",
        str "import \x7b Button \x7d from \"your-package-name\"\n<Button>x</Button>\nButton()")]).instFunc
        (str "Button")) :=
  claim_C2 [(str "f1",
    str "import \x7b Button \x7d from \"your-package-name\"\n<Button>x</Button>\nButton()")]
    (by decide) (str "Button") (by decide) (str "f1")

/-- C2 counterexample: a plain key `NS.Member` (importable through the
brace capture) and a namespace import `* as NS` in the same file: the
text `<NSxMember>` matches the plain markup pattern (the spliced `.` is
a regex wildcard) while `NS.Member()` matches the namespace call
pattern, so the same literal key `NS.Member` is recorded in *both*
instance tables for the same file, violating the claimed invariant. -/
theorem claim_C2_counterexample :
    str "f1" ∈ filesAt (runAnalysis [(str "f1",
      str "import \x7bNS.Member\x7d from \"your-package-name\"\nimport * as NS from \"your-package-name\"\n<NSxMember> NS.Member()")]).instJSX
      (str "NS.Member") ∧
    str "f1" ∈ filesAt (runAnalysis [(str "f1",
      str "import \x7bNS.Member\x7d from \"your-package-name\"\nimport * as NS from \"your-package-name\"\n<NSxMember> NS.Member()")]).instFunc
      (str "NS.Member") :=
  ⟨by decide, by decide⟩

/-- C6: the usage-scan scope is global.  For any symbol-table state in
which `S` is a key — regardless of which files imported it — scanning
any file whose text has a call match (and no markup match, and which has
not already received a markup record) records that file in the
call-style row of `S`. -/
theorem claim_C6 (st : St) (content fB S : Str) (hS : WordName S)
    (hmem : S ∈ keysOf st.usage) (hnd : (keysOf st.usage).Nodup)
    (hnojsx : jsxSites S content = []) (hnew : fB ∉ filesAt st.instJSX S)
    (hfunc : funcSites S content ≠ []) :
    fB ∈ filesAt (findComponentUsages content fB st).instFunc S := by
  obtain ⟨_, h2⟩ := (findComponentUsages_at (c := content) (f := fB) hS st hnd).1 hmem
  rw [h2, if_pos ⟨by rw [hnojsx]; rfl, hnew⟩]
  refine List.mem_append.mpr (Or.inr (List.mem_replicate.mpr ⟨?_, rfl⟩))
  intro h0
  exact hfunc (List.length_eq_zero.mp h0)

/-- C6 witness: `Button` is imported only by `fA`, yet scanning `fB`
(which never imports it) against the resulting table records `fB` in the
call-style row. -/
theorem claim_C6_witness :
    str "fB" ∈ filesAt (findComponentUsages (str "Button(1)") (str "fB")
      (runAnalysis [(str "fA",
        str "import \x7b Button \x7d from \"your-package-name\"")])).instFunc
      (str "Button") :=
  claim_C6 (runAnalysis [(str "fA",
      str "import \x7b Button \x7d from \"your-package-name\"")])
    (str "Button(1)") (str "fB") (str "Button")
    (by decide) (by decide) (by decide) (by decide) (by decide) (by decide)

end CompUsage
